import Mathlib

/-!
Verification of the interval-map container (`src/util/sawyer/IntervalMap.h`)
and the symbolic instruction-semantics policy
(`src/midend/binaryAnalyses/instructionSemantics/SymbolicSemantics.h`)
from the rose-develop repository.

The interval map is embedded as a list of interval/value nodes kept sorted by
the interval's greatest element, mirroring the underlying `Sawyer::Container::Map`
ordered by the `IntervalCompare` functor (compare by `greatest()`).  The scalar
domain of intervals is `Nat` restricted to `[0, M-1]` for a modulus parameter
`M` (`M = 2^w` for a `w`-bit unsigned scalar type); machine arithmetic on the
domain is written with explicit `% M`.

The `Sawyer::Container::Interval` and `Sawyer::Container::Map` headers are not
part of the sources; their operations (`least`, `greatest`, `size`,
`isEmpty`, `isOverlapping`, `isContaining`, `isLeftOf`, `hull`, sorted-map
insertion and `lowerBound`) are modelled from the specification, section 3.5.
-/

namespace IntervalMap

/-- A storage node of the interval map: a closed interval `[lo, hi]` together
with a user value, mirroring `Map::Node` (`key`/`value`). -/
structure Node (V : Type) where
  lo : Nat
  hi : Nat
  val : V
  deriving DecidableEq, Repr

/-- The interval map representation: nodes sorted by `hi` (the
`IntervalCompare` order of the underlying `Sawyer::Container::Map`). -/
abbrev IMap (V : Type) := List (Node V)

/-- Modelled from the spec: an interval is a non-empty closed range `[lo, hi]`
or the distinguished empty interval (spec section 3.5). -/
inductive Iv where
  | empty : Iv
  | mk (lo hi : Nat) : Iv
  deriving DecidableEq, Repr

/-- Well-formedness of an interval over the domain `[0, M-1]`:
the bounds are ordered and inside the domain. -/
def IvWF (M : Nat) : Iv → Prop
  | .empty => True
  | .mk lo hi => lo ≤ hi ∧ hi < M

/-- Modelled from the spec: `Interval::size()` computed in the scalar domain's
machine arithmetic, so that an interval spanning the entire domain has size 0
(spec section 3.5). -/
def ivSize (M lo hi : Nat) : Nat :=
  (hi - lo + 1) % M

/-- Modelled from the spec: `Interval::isOverlapping` for two non-empty
intervals `[alo, ahi]` and `[blo, bhi]`. -/
def ivOverlapping (alo ahi blo bhi : Nat) : Bool :=
  decide (blo ≤ ahi) && decide (alo ≤ bhi)

/-- The merge policy interface (`MergePolicy`): `merge` returns the combined
value (stored into the left value in C++) or `none` when the two values cannot
be merged; `split` maps a value to the (left, right) pair of values for the two
halves; `truncate` keeps only the left part.  All three receive the interval
and the split point exactly as in the C++ interface. -/
structure MergePolicy (V : Type) where
  merge : Nat → Nat → V → Nat → Nat → V → Option V
  split : Nat → Nat → V → Nat → V × V
  truncate : Nat → Nat → V → Nat → V

/-- The default merge policy: values merge iff they are equal, `split` and
`truncate` keep the value unchanged. -/
def defaultPolicy (V : Type) [DecidableEq V] : MergePolicy V where
  merge := fun _ _ lv _ _ rv => if lv = rv then some lv else none
  split := fun _ _ v _ => (v, v)
  truncate := fun _ _ v _ => v

/-- Modelled from the spec: sorted-map insertion of the underlying
`Sawyer::Container::Map` (ordered by `greatest()`, equal keys overwrite). -/
def mapInsert {V : Type} (n : Node V) : IMap V → IMap V
  | [] => [n]
  | x :: xs =>
    if n.hi < x.hi then n :: x :: xs
    else if x.hi < n.hi then x :: mapInsert n xs
    else n :: xs

/-- `Map::insertMultiple`: insert every node of `ins` (in order) into `m`. -/
def insertAll {V : Type} (ins : IMap V) (m : IMap V) : IMap V :=
  ins.foldl (fun acc n => mapInsert n acc) m

/-- `IntervalMap::lowerBound(scalar)`: the tail of the map starting at the
first node whose interval ends at or above `s`. -/
def lowerBound {V : Type} (s : Nat) (m : IMap V) : IMap V :=
  m.dropWhile (fun n => n.hi < s)

/-- `IntervalMap::find(scalar)`: the node containing `s`, if any. -/
def find {V : Type} (s : Nat) (m : IMap V) : Option (Node V) :=
  match lowerBound s m with
  | [] => none
  | n :: _ => if s < n.lo then none else some n

/-- Remove the first node whose interval ends at `h` (models `Map::eraseAt`
applied to the iterator returned by `find`; keys are unique by `hi` in a
well-formed map). -/
def removeHi {V : Type} (h : Nat) : IMap V → IMap V
  | [] => []
  | x :: xs => if x.hi = h then xs else x :: removeHi h xs

/-- The loop of `IntervalMap::erase`, iterating from `lowerBound(erasure.least())`
while the erasure is not left of the current node.  It returns the accumulated
insertions (the left/right remnants of partially erased nodes, accumulated into
a sorted `Map` exactly as the C++ `insertions` map) and the unvisited tail of
the list.  All visited nodes are removed, matching `eraseAtMultiple(eraseBegin,
iter)` which erases the whole visited range. -/
def eraseLoop {V : Type} (P : MergePolicy V) (elo ehi : Nat) :
    List (Node V) → List (Node V) × List (Node V)
  | [] => ([], [])
  | n :: rest =>
    if ehi < n.lo then
      -- erasure.isLeftOf(iter->key()): the loop stops here
      ([], n :: rest)
    else if elo ≤ n.lo ∧ n.hi ≤ ehi then
      -- erase the entire found interval
      eraseLoop P elo ehi rest
    else if n.lo < elo ∧ ehi < n.hi then
      -- erase the middle of the node, leaving a left and a right portion
      let p := eraseLoop P elo ehi rest
      let sp := P.split n.lo n.hi n.val (ehi + 1)
      (mapInsert ⟨n.lo, elo - 1, P.truncate n.lo ehi sp.1 elo⟩
        (mapInsert ⟨ehi + 1, n.hi, sp.2⟩ p.1), p.2)
    else if n.lo < elo then
      -- erase the right part of the node
      let p := eraseLoop P elo ehi rest
      (mapInsert ⟨n.lo, elo - 1, P.truncate n.lo n.hi n.val elo⟩ p.1, p.2)
    else if ehi < n.hi then
      -- erase the left part of the node
      let p := eraseLoop P elo ehi rest
      (mapInsert ⟨ehi + 1, n.hi, (P.split n.lo n.hi n.val (ehi + 1)).2⟩ p.1, p.2)
    else
      -- unreachable for nodes visited by the loop; such a node would still be
      -- removed by the range erase eraseAtMultiple(eraseBegin, iter)
      eraseLoop P elo ehi rest

/-- `IntervalMap::erase`. -/
def erase {V : Type} (P : MergePolicy V) (erasure : Iv) (m : IMap V) : IMap V :=
  match erasure with
  | .empty => m
  | .mk elo ehi =>
    let pre := m.takeWhile (fun n => n.hi < elo)
    let rest := m.dropWhile (fun n => n.hi < elo)
    let p := eraseLoop P elo ehi rest
    insertAll p.1 (pre ++ p.2)

/-- Intermediate key/value/map state of `IntervalMap::insert` while attempting
to merge with the two adjoining nodes. -/
structure InsState (V : Type) where
  lo : Nat
  hi : Nat
  val : V
  map : IMap V

/-- The attempt of `IntervalMap::insert` to merge with a left-adjoining node.
`(klo + M - 1) % M` is the machine computation `key.least() - 1`. -/
def leftMergeStep {V : Type} (M : Nat) (P : MergePolicy V) (klo khi : Nat) (v : V)
    (m : IMap V) : InsState V :=
  if (klo + M - 1) % M < klo then
    match find ((klo + M - 1) % M) m with
    | some L =>
      if (L.hi + 1) % M = klo then
        match P.merge L.lo L.hi L.val klo khi v with
        | some v' => ⟨min L.lo khi, max L.lo khi, v', removeHi L.hi m⟩
        | none => ⟨klo, khi, v, m⟩
      else ⟨klo, khi, v, m⟩
    | none => ⟨klo, khi, v, m⟩
  else ⟨klo, khi, v, m⟩

/-- The attempt of `IntervalMap::insert` to merge with a right-adjoining node.
`(khi + 1) % M` is the machine computation `key.greatest() + 1`. -/
def rightMergeStep {V : Type} (M : Nat) (P : MergePolicy V) (klo khi : Nat) (v : V)
    (m : IMap V) : InsState V :=
  if khi < (khi + 1) % M then
    match find ((khi + 1) % M) m with
    | some R =>
      if (khi + 1) % M = R.lo then
        match P.merge klo khi v R.lo R.hi R.val with
        | some v' => ⟨min klo R.hi, max klo R.hi, v', removeHi R.hi m⟩
        | none => ⟨klo, khi, v, m⟩
      else ⟨klo, khi, v, m⟩
    | none => ⟨klo, khi, v, m⟩
  else ⟨klo, khi, v, m⟩

/-- The merging and final insertion performed by `IntervalMap::insert` after
the hole has been made (or the overlap check passed). -/
def insertCore {V : Type} (M : Nat) (P : MergePolicy V) (klo khi : Nat) (v : V)
    (m : IMap V) : IMap V :=
  let a := leftMergeStep M P klo khi v m
  let b := rightMergeStep M P a.lo khi a.val a.map
  mapInsert ⟨b.lo, b.hi, b.val⟩ b.map

/-- `IntervalMap::insert(key, value, makeHole)`. -/
def insert {V : Type} (M : Nat) (P : MergePolicy V) (key : Iv) (v : V)
    (makeHole : Bool) (m : IMap V) : IMap V :=
  match key with
  | .empty => m
  | .mk klo khi =>
    if makeHole then
      insertCore M P klo khi v (erase P (.mk klo khi) m)
    else
      match lowerBound klo m with
      | f :: _ =>
        if ivOverlapping klo khi f.lo f.hi then m
        else insertCore M P klo khi v m
      | [] => insertCore M P klo khi v m

/-- The loop of `IntervalMap::contains`: `klo` is the least of the still
unverified part of the key, the list is the iterator position. -/
def containsGo {V : Type} (khi : Nat) : Nat → List (Node V) → Bool
  | _, [] => false
  | klo, n :: rest =>
    if klo < n.lo then false
    else if khi ≤ n.hi then true
    else containsGo khi (n.hi + 1) rest

/-- `IntervalMap::contains(key)`. -/
def contains {V : Type} (key : Iv) (m : IMap V) : Bool :=
  match key with
  | .empty => true
  | .mk klo khi => containsGo khi klo (lowerBound klo m)

/-- The condition under which the `bestFit` loop replaces its `best`
accumulator: the node is strictly larger than the requested size and strictly
smaller than the current best, if any. -/
def improves {V : Type} (M sz : Nat) (n : Node V) : Option (Node V) → Bool
  | none => decide (sz < ivSize M n.lo n.hi)
  | some b => decide (sz < ivSize M n.lo n.hi) && decide (ivSize M n.lo n.hi < ivSize M b.lo b.hi)

/-- The loop of `IntervalMap::bestFit(size, start)` with its `best`
accumulator; the list argument is the iterator position. -/
def bestFitGo {V : Type} (M sz : Nat) : List (Node V) → Option (Node V) → Option (Node V)
  | [], best => best
  | n :: rest, best =>
    if ivSize M n.lo n.hi = sz ∧ sz ≠ 0 then some n
    else if improves M sz n best then bestFitGo M sz rest (some n)
    else bestFitGo M sz rest best

/-- `IntervalMap::bestFit(size, start)`: `start` is the list tail at the
starting iterator; the result is the returned node, `none` for the end
iterator. -/
def bestFit {V : Type} (M sz : Nat) (start : List (Node V)) : Option (Node V) :=
  bestFitGo M sz start none

/-- `IntervalMap::isLarge(interval, size)`: whether a non-empty interval
`[lo, hi]` holds at least `size` values, treating machine size 0 (an interval
spanning the whole domain) as large. -/
def isLarge (M lo hi sz : Nat) : Bool :=
  decide (lo ≤ hi) && (decide (ivSize M lo hi = 0) || decide (sz ≤ ivSize M lo hi))

/-- A mutating interval-map operation (the operations quantified over by the
container invariant): `insert`, `erase`, `insertMultiple`, `eraseMultiple` and
`clear`. -/
inductive MapOp (V : Type) where
  | opInsert (key : Iv) (v : V) (makeHole : Bool)
  | opErase (key : Iv)
  | opInsertMultiple (other : List (Iv × V)) (makeHole : Bool)
  | opEraseMultiple (other : List Iv)
  | opClear

/-- Apply one mutating operation; `insertMultiple`/`eraseMultiple` iterate the
other container's nodes calling `insert`/`erase` as in the C++ loops. -/
def applyOp {V : Type} (M : Nat) (P : MergePolicy V) (m : IMap V) : MapOp V → IMap V
  | .opInsert key v mh => insert M P key v mh m
  | .opErase key => erase P key m
  | .opInsertMultiple other mh =>
    other.foldl (fun acc kv => insert M P kv.1 kv.2 mh acc) m
  | .opEraseMultiple other =>
    other.foldl (fun acc k => erase P k acc) m
  | .opClear => []

/-- Run a sequence of mutating operations starting from the empty map. -/
def runOps {V : Type} (M : Nat) (P : MergePolicy V) (ops : List (MapOp V)) : IMap V :=
  ops.foldl (applyOp M P) []

/-- Well-formedness of the interval arguments of an operation: every interval
handed to the container is a valid interval of the domain (guaranteed by the
C++ `Interval` type). -/
def OpWF {V : Type} (M : Nat) : MapOp V → Prop
  | .opInsert key _ _ => IvWF M key
  | .opErase key => IvWF M key
  | .opInsertMultiple other _ => ∀ kv ∈ other, IvWF M kv.1
  | .opEraseMultiple other => ∀ k ∈ other, IvWF M k
  | .opClear => True

/-- A node lies inside the scalar domain `[0, M-1]` and is a non-empty
interval. -/
def NodeWF {V : Type} (M : Nat) (n : Node V) : Prop :=
  n.lo ≤ n.hi ∧ n.hi < M

/-- Strict ordering of two nodes: the first interval lies entirely left of
(and not touching positions of) the second.  `List.Pairwise NodeLt` is the
sortedness/non-overlap invariant of the container. -/
def NodeLt {V : Type} (a b : Node V) : Prop :=
  a.hi < b.lo

instance {V : Type} : DecidableRel (NodeLt (V := V)) := fun a b =>
  inferInstanceAs (Decidable (a.hi < b.lo))

/-- The invariant claimed by the specification for any two stored nodes, for a
given merge policy: their intervals do not overlap, and if they are adjacent
then the merge policy rejects merging their values. -/
def ClaimRel {V : Type} (P : MergePolicy V) (a b : Node V) : Prop :=
  ivOverlapping a.lo a.hi b.lo b.hi = false ∧
    (a.hi + 1 = b.lo → P.merge a.lo a.hi a.val b.lo b.hi b.val = none)

/-- The claimed container invariant for a whole map. -/
def ClaimInvariant {V : Type} (P : MergePolicy V) (m : IMap V) : Prop :=
  m.Pairwise (ClaimRel P)

/-- The working invariant for the default merge policy: nodes are sorted and
non-overlapping, adjacent nodes carry different values, and every node is
well formed. -/
def DRel {V : Type} (a b : Node V) : Prop :=
  a.hi < b.lo ∧ (a.hi + 1 = b.lo → a.val ≠ b.val)

def InvD {V : Type} (M : Nat) (m : IMap V) : Prop :=
  m.Pairwise DRel ∧ ∀ n ∈ m, NodeWF M n

/-- The ordering part of the invariant alone (policy independent). -/
def InvO {V : Type} (M : Nat) (m : IMap V) : Prop :=
  m.Pairwise NodeLt ∧ ∀ n ∈ m, NodeWF M n

end IntervalMap

/-!
Embedding of `SymbolicSemantics.h`: expression trees, memory cells, the
machine state, and the policy operations named by the claims.

Expression trees (`TreeNode`/`InternalNode`/`LeafNode`) are embedded as an
inductive type; internal nodes appear with the one-, two- and three-child
constructors actually used by the policy.  The bodies of
`LeafNode::create_integer`, the `equal_to` methods and the alias predicates
live in a source file that is not part of the sources; they are modelled from
the specification (sections 3.1 and 4.5): `create_integer` stores the value
with bits above the width zeroed, `equal_to` is recursive structural equality,
`must_alias` compares address expressions structurally plus sizes, and
`may_alias` is the minimal conforming conservative predicate that lets any two
cells alias.
-/

namespace SymbolicSemantics

/-- Operators of internal expression nodes (`enum Operator`). -/
inductive Operatr where
  | OP_ADD | OP_AND | OP_ASR | OP_BV_AND | OP_BV_OR | OP_BV_XOR | OP_CONCAT
  | OP_EQ | OP_EXTRACT | OP_INVERT | OP_ITE | OP_LSSB | OP_MSSB | OP_NE
  | OP_NEGATE | OP_NOOP | OP_OR | OP_ROL | OP_ROR | OP_SDIV | OP_SEXTEND
  | OP_SHL0 | OP_SHL1 | OP_SHR0 | OP_SHR1 | OP_SMOD | OP_SMUL | OP_UDIV
  | OP_UEXTEND | OP_UMOD | OP_UMUL | OP_ZEROP
  deriving DecidableEq, Repr

/-- Expression trees: a leaf is a known constant (`intLeaf`) or an unknown
variable with a process-unique name (`varLeaf`); internal nodes carry an
operator, a bit width and one to three children (the arities used by the
policy). -/
inductive Expr where
  | intLeaf (w : Nat) (v : Nat)
  | varLeaf (w : Nat) (name : Nat)
  | node1 (w : Nat) (op : Operatr) (a : Expr)
  | node2 (w : Nat) (op : Operatr) (a b : Expr)
  | node3 (w : Nat) (op : Operatr) (a b c : Expr)
  deriving DecidableEq, Repr

/-- Modelled from the spec: `LeafNode::create_integer(nbits, n)` keeps the low
`nbits` bits of `n` ("unused msb are zero"). -/
def mkInt (w n : Nat) : Expr :=
  .intLeaf w (n % 2 ^ w)

/-- `TreeNode::get_nbits()`. -/
def widthOf : Expr → Nat
  | .intLeaf w _ => w
  | .varLeaf w _ => w
  | .node1 w _ _ => w
  | .node2 w _ _ _ => w
  | .node3 w _ _ _ _ => w

/-- `TreeNode::is_known()`: true exactly for known-constant leaves. -/
def is_known : Expr → Bool
  | .intLeaf _ _ => true
  | _ => false

/-- `LeafNode::get_value()`; 0 elsewhere (the C++ asserts there, and the
value is only consulted under `is_known`). -/
def get_value : Expr → Nat
  | .intLeaf _ v => v
  | _ => 0

/-- Modelled from the spec: structural equality of expressions
(`TreeNode::equal_to`): same variant, same width, same operator, same
value/name for leaves, structurally equal children in the same order. -/
def equal_to : Expr → Expr → Bool
  | .intLeaf w v, .intLeaf w' v' => w = w' && v = v'
  | .varLeaf w n, .varLeaf w' n' => w = w' && n = n'
  | .node1 w op a, .node1 w' op' a' => w = w' && op = op' && equal_to a a'
  | .node2 w op a b, .node2 w' op' a' b' =>
    w = w' && op = op' && equal_to a a' && equal_to b b'
  | .node3 w op a b c, .node3 w' op' a' b' c' =>
    w = w' && op = op' && equal_to a a' && equal_to b b' && equal_to c c'
  | _, _ => false

/-- Every known-constant leaf of the expression stores its value with the bits
above its width zero (guaranteed by `create_integer` at every construction
site). -/
def Masked : Expr → Bool
  | .intLeaf w v => decide (v < 2 ^ w)
  | .varLeaf _ _ => true
  | .node1 _ _ a => Masked a
  | .node2 _ _ a b => Masked a && Masked b
  | .node3 _ _ a b c => Masked a && Masked b && Masked c

/-- `Policy::unsignedExtend<FromLen, ToLen>`. -/
def unsignedExtend (FromLen ToLen : Nat) (a : Expr) : Expr :=
  if is_known a then mkInt ToLen (get_value a)
  else if FromLen = ToLen then a
  else if FromLen > ToLen then
    .node3 ToLen .OP_EXTRACT (mkInt 32 0) (mkInt 32 ToLen) a
  else .node2 ToLen .OP_UEXTEND (mkInt 32 ToLen) a

/-- `Policy::extract<BeginAt, EndAt, Len>`. -/
def extract (BeginAt EndAt Len : Nat) (a : Expr) : Expr :=
  if BeginAt = 0 then unsignedExtend Len (EndAt - BeginAt) a
  else if is_known a then mkInt (EndAt - BeginAt) (get_value a)
  else .node3 (EndAt - BeginAt) .OP_EXTRACT (mkInt 32 BeginAt) (mkInt 32 EndAt) a

/-- `Policy::add<Len>` with its constant folding and zero simplifications. -/
def add (Len : Nat) (a b : Expr) : Expr :=
  if is_known a then
    if is_known b then mkInt Len (get_value a + get_value b)
    else if get_value a = 0 then b
    else .node2 Len .OP_ADD a b
  else if is_known b && decide (get_value b = 0) then a
  else .node2 Len .OP_ADD a b

/-- `Policy::xor_<Len>`. -/
def xor_ (Len : Nat) (a b : Expr) : Expr :=
  .node2 Len .OP_BV_XOR a b

/-- `Policy::addWithCarries<Len>`: the first component is the returned sum,
the second the `carry_out` output argument. -/
def addWithCarries (Len : Nat) (a b c : Expr) : Expr × Expr :=
  let aa := unsignedExtend Len (Len + 1) a
  let bb := unsignedExtend Len (Len + 1) b
  let cc := unsignedExtend 1 (Len + 1) c
  let sumco := add (Len + 1) aa (add (Len + 1) bb cc)
  let carry_out := extract 1 (Len + 1) (Len + 1) (xor_ (Len + 1) aa (xor_ (Len + 1) bb sumco))
  (add Len a (add Len b (unsignedExtend 1 Len c)), carry_out)

/-- Evaluation of the fragment of the operator algebra used by the claims,
with the semantics given by the specification's width/operator table (section
4.1); every node evaluates to its value reduced modulo `2 ^ width`. -/
def eval (r : Nat → Nat) : Expr → Nat
  | .intLeaf w v => v % 2 ^ w
  | .varLeaf w n => r n % 2 ^ w
  | .node2 w .OP_ADD a b => (eval r a + eval r b) % 2 ^ w
  | .node2 w .OP_BV_XOR a b => (eval r a ^^^ eval r b) % 2 ^ w
  | .node2 w .OP_UEXTEND _ x => eval r x % 2 ^ w
  | .node3 w .OP_EXTRACT lo _ x => (eval r x / 2 ^ eval r lo) % 2 ^ w
  | .node1 _ _ _ => 0
  | .node2 _ _ _ _ => 0
  | .node3 _ _ _ _ _ => 0

/-- `struct MemoryCell`. -/
structure MemoryCell where
  address : Expr
  data : Expr
  nbytes : Nat
  clobbered : Bool
  written : Bool
  deriving DecidableEq, Repr

/-- Modelled from the spec: `MemoryCell::must_alias` holds iff the address
expressions are structurally equal and the sizes are equal. -/
def must_alias (a b : MemoryCell) : Bool :=
  equal_to a.address b.address && decide (a.nbytes = b.nbytes)

/-- Modelled from the spec: `MemoryCell::may_alias`, minimal conforming
conservative version: any two cells may alias. -/
def may_alias (_ _ : MemoryCell) : Bool :=
  true

abbrev Memory := List MemoryCell

/-- `struct State`: instruction pointer, general purpose registers, segment
registers, flags and memory. -/
structure State where
  ip : Expr
  gpr : List Expr
  segreg : List Expr
  flag : List Expr
  mem : Memory
  deriving DecidableEq, Repr

/-- The probe cell built at the start of `mem_read`: the given address, a
fresh unknown 32-bit variable as data, `Len/8` bytes, not clobbered, not
written. -/
def readCell (addr : Expr) (ctr : Nat) (nbytes : Nat) : MemoryCell :=
  ⟨addr, .varLeaf 32 ctr, nbytes, false, false⟩

/-- Result of the first scan loop of `mem_read`: either a must-aliasing cell
was found (with the possibly updated memory and the data to return) or none
was, with the accumulated `aliased` flag. -/
inductive ScanRes where
  | found (newMem : Memory) (ret : Expr)
  | noMust (aliased : Bool)

/-- The first loop of `mem_read` over `state.mem`: stop at the first
must-aliasing cell (un-clobbering it and overwriting its data with the fresh
variable when it was clobbered); otherwise accumulate whether any
may-aliasing written cell was seen. -/
def readScan (c : MemoryCell) : Memory → ScanRes
  | [] => .noMust false
  | m :: rest =>
    if must_alias c m then
      if m.clobbered then
        .found (⟨m.address, c.data, m.nbytes, false, m.written⟩ :: rest) c.data
      else .found (m :: rest) m.data
    else
      match readScan c rest with
      | .found newRest ret => .found (m :: newRest) ret
      | .noMust al => .noMust (al || (may_alias c m && m.written))

/-- The second loop of `mem_read`, over the original state's memory: the
first must-aliasing cell, if any. -/
def find_must (c : MemoryCell) : Memory → Option MemoryCell
  | [] => none
  | m :: rest => if must_alias c m then some m else find_must c rest

/-- Result of `mem_read`: the returned value, the updated original-state
memory, the updated argument-state memory, and the next fresh-variable
counter. -/
structure ReadRes where
  val : Expr
  orig : Memory
  mem : Memory
  ctr : Nat
  deriving Repr

/-- `Policy::mem_read<Len>(state, addr)`.  `isOrig` tells whether the state
argument is physically the policy's original state (`&state == &orig_state`);
`orig` and `mem` are the memories of the original and the argument state (the
only parts of the states the function touches); `ctr` is the global
fresh-variable counter `name_counter`. -/
def mem_read (Len : Nat) (isOrig : Bool) (orig mem : Memory) (addr : Expr)
    (ctr : Nat) : ReadRes :=
  let c := readCell addr ctr (Len / 8)
  match readScan c mem with
  | .found newMem ret => ⟨unsignedExtend 32 Len ret, orig, newMem, ctr + 1⟩
  | .noMust aliased =>
    if !aliased && !isOrig then
      match find_must c orig with
      | some m => ⟨unsignedExtend 32 Len m.data, orig, mem ++ [m], ctr + 1⟩
      | none => ⟨unsignedExtend 32 Len c.data, orig ++ [c], mem ++ [c], ctr + 1⟩
    else ⟨unsignedExtend 32 Len c.data, orig, mem ++ [c], ctr + 1⟩

/-- `enum MemRefType`. -/
inductive MemRefType where
  | MRT_STACK_PTR | MRT_FRAME_PTR | MRT_OTHER_PTR
  deriving DecidableEq

/-- `Policy::memory_reference_type`: the implementation unconditionally
returns `MRT_OTHER_PTR` (its refined body is disabled in the source). -/
def memory_reference_type (_addr : Expr) : MemRefType :=
  .MRT_OTHER_PTR

/-- The cell written by `mem_write<Len>`: data zero-extended to 32 bits,
`Len/8` bytes, not clobbered, written. -/
def writeCell (Len : Nat) (addr data : Expr) : MemoryCell :=
  ⟨addr, unsignedExtend Len 32 data, Len / 8, false, true⟩

/-- The per-cell effect of the `mem_write` loop: a must-aliasing cell is
replaced by the written cell; otherwise, unless the discard-popped-memory
setting makes the reference categories differ, a may-aliasing cell gets its
clobbered flag set. -/
def writeXform (dpm : Bool) (c m : MemoryCell) : MemoryCell :=
  if must_alias c m then c
  else if dpm && decide (memory_reference_type c.address ≠ memory_reference_type m.address) then m
  else if may_alias c m then { m with clobbered := true }
  else m

/-- The loop of `mem_write` over `state.mem`; the Boolean is the `saved`
flag (a must-aliasing cell was overwritten in place). -/
def writeLoop (dpm : Bool) (c : MemoryCell) : Memory → Memory × Bool
  | [] => ([], false)
  | m :: rest =>
    let p := writeLoop dpm c rest
    if must_alias c m then (c :: p.1, true)
    else if dpm && decide (memory_reference_type c.address ≠ memory_reference_type m.address) then
      (m :: p.1, p.2)
    else if may_alias c m then ({ m with clobbered := true } :: p.1, p.2)
    else (m :: p.1, p.2)

/-- `Policy::mem_write<Len>(state, addr, data)`: the function asserts that the
state is not the original state and then only modifies `state.mem`. -/
def mem_write (Len : Nat) (dpm : Bool) (s : State) (addr data : Expr) : State :=
  let c := writeCell Len addr data
  let p := writeLoop dpm c s.mem
  { s with mem := if p.2 then p.1 else p.1 ++ [c] }

end SymbolicSemantics

namespace IntervalMap

/-- The value of the left remnant produced when `erase` cuts the right part
(or the middle) off a node: the policy's `truncate` applied as in the two
corresponding branches of the erase loop. -/
def leftVal {V : Type} (P : MergePolicy V) (elo ehi : Nat) (n : Node V) : V :=
  if ehi < n.hi then P.truncate n.lo ehi (P.split n.lo n.hi n.val (ehi + 1)).1 elo
  else P.truncate n.lo n.hi n.val elo

/-- The value of the right remnant produced when `erase` cuts the left part
(or the middle) off a node. -/
def rightVal {V : Type} (P : MergePolicy V) (ehi : Nat) (n : Node V) : V :=
  (P.split n.lo n.hi n.val (ehi + 1)).2

/-- Closed form of the insertions accumulated by the erase loop over the
visited nodes: a left remnant of the first visited node when the erasure
starts strictly inside it, and a right remnant of the last visited node when
the erasure ends strictly inside it. -/
def eraseIns {V : Type} (P : MergePolicy V) (elo ehi : Nat)
    (walked : List (Node V)) : List (Node V) :=
  match walked with
  | [] => []
  | n1 :: w' =>
    (if n1.lo < elo then [⟨n1.lo, elo - 1, leftVal P elo ehi n1⟩] else []) ++
      (let nk := w'.getLastD n1
       if ehi < nk.hi then [⟨ehi + 1, nk.hi, rightVal P ehi nk⟩] else [])

/-- A `bestFit` candidate: its machine interval size strictly exceeds the
requested size, or equals a nonzero requested size. -/
def bfCand {V : Type} (M sz : Nat) (n : Node V) : Bool :=
  decide (sz < ivSize M n.lo n.hi) || (decide (ivSize M n.lo n.hi = sz) && decide (sz ≠ 0))

/-- First node of minimal machine interval size in a list (earlier nodes win
ties), starting from an optional accumulator. -/
def firstMinAux {V : Type} (M : Nat) : Option (Node V) → List (Node V) → Option (Node V)
  | best, [] => best
  | none, n :: rest => firstMinAux M (some n) rest
  | some b, n :: rest =>
    firstMinAux M (some (if ivSize M n.lo n.hi < ivSize M b.lo b.hi then n else b)) rest

/-- Specification-level description of `bestFit`: the first candidate of
minimal machine interval size, or `none` when there is no candidate. -/
def bestFitSpec {V : Type} (M sz : Nat) (l : List (Node V)) : Option (Node V) :=
  firstMinAux M none (l.filter (bfCand M sz))

/-- A legal C++ merge policy whose `truncate` rewrites the surviving value to
the constant 0 (values merge iff equal, as in the default policy). -/
def zeroTruncPolicy : MergePolicy Nat where
  merge := fun _ _ lv _ _ rv => if lv = rv then some lv else none
  split := fun _ _ v _ => (v, v)
  truncate := fun _ _ _ _ => 0

end IntervalMap

namespace SymbolicSemantics

theorem equal_to_refl (e : Expr) : equal_to e e = true := by
  induction e with
  | intLeaf w v => simp [equal_to]
  | varLeaf w n => simp [equal_to]
  | node1 w op a iha => simp [equal_to, iha]
  | node2 w op a b iha ihb => simp [equal_to, iha, ihb]
  | node3 w op a b c iha ihb ihc => simp [equal_to, iha, ihb, ihc]

theorem equal_to_iff (a b : Expr) : equal_to a b = true ↔ a = b := by
  induction a generalizing b with
  | intLeaf w v => cases b <;> simp [equal_to]
  | varLeaf w n => cases b <;> simp [equal_to]
  | node1 w op x ihx => cases b <;> simp [equal_to, ihx, and_assoc]
  | node2 w op x y ihx ihy => cases b <;> simp [equal_to, ihx, ihy, and_assoc]
  | node3 w op x y z ihx ihy ihz => cases b <;> simp [equal_to, ihx, ihy, ihz, and_assoc]

end SymbolicSemantics

namespace SymbolicSemantics

/-- Claim C7: `add(a, known 0)` and `add(known 0, a)` return a value
structurally equal to `a`, and `add` of two known constants returns a known
constant leaf carrying the sum modulo `2 ^ w`. -/
theorem C7_add_identities (Len : Nat) (a : Expr) (va vb : Nat)
    (hw : widthOf a = Len) (hm : Masked a = true) :
    equal_to (add Len a (mkInt Len 0)) a = true ∧
    equal_to (add Len (mkInt Len 0) a) a = true ∧
    add Len (mkInt Len va) (mkInt Len vb) = Expr.intLeaf Len ((va + vb) % 2 ^ Len) := by
  refine ⟨?_, ?_, ?_⟩
  · cases a with
    | intLeaf w v =>
      simp only [widthOf] at hw
      subst hw
      have hv : v < 2 ^ w := by simpa [Masked] using hm
      simp [add, is_known, get_value, mkInt, Nat.mod_eq_of_lt hv, equal_to_refl]
    | varLeaf w n => simp [add, is_known, get_value, mkInt, equal_to_refl]
    | node1 w op x => simp [add, is_known, get_value, mkInt, equal_to_refl]
    | node2 w op x y => simp [add, is_known, get_value, mkInt, equal_to_refl]
    | node3 w op x y z => simp [add, is_known, get_value, mkInt, equal_to_refl]
  · cases a with
    | intLeaf w v =>
      simp only [widthOf] at hw
      subst hw
      have hv : v < 2 ^ w := by simpa [Masked] using hm
      simp [add, is_known, get_value, mkInt, Nat.mod_eq_of_lt hv, equal_to_refl]
    | varLeaf w n => simp [add, is_known, get_value, mkInt, equal_to_refl]
    | node1 w op x => simp [add, is_known, get_value, mkInt, equal_to_refl]
    | node2 w op x y => simp [add, is_known, get_value, mkInt, equal_to_refl]
    | node3 w op x y z => simp [add, is_known, get_value, mkInt, equal_to_refl]
  · simp only [add, mkInt, is_known, get_value, if_pos]
    congr 1
    exact (Nat.add_mod va vb (2 ^ Len)).symm

/-- Witness for C7 at width 4 with an unknown variable and the constants 9
and 10. -/
theorem C7_witness :
    equal_to (add 4 (Expr.varLeaf 4 3) (mkInt 4 0)) (Expr.varLeaf 4 3) = true ∧
    equal_to (add 4 (mkInt 4 0) (Expr.varLeaf 4 3)) (Expr.varLeaf 4 3) = true ∧
    add 4 (mkInt 4 9) (mkInt 4 10) = Expr.intLeaf 4 ((9 + 10) % 2 ^ 4) :=
  C7_add_identities 4 (Expr.varLeaf 4 3) 9 10 (by decide) (by decide)

end SymbolicSemantics

namespace IntervalMap

/-- Counterexample for claim C8: inserting the empty interval is not fatal;
`insert` returns normally leaving the container unchanged (the C++ code's
first statement is `if (key.isEmpty()) return;`, with no assertion). -/
theorem C8_counterexample :
    insert 16 (defaultPolicy Nat) Iv.empty 5 true [⟨0, 3, 5⟩] = [⟨0, 3, 5⟩] := rfl

/-- Claim C8 (amended): inserting an empty interval returns normally and is a
no-op for every map, value, policy and `makeHole` setting. -/
theorem C8_insert_empty_noop {V : Type} (M : Nat) (P : MergePolicy V) (v : V)
    (mh : Bool) (m : IMap V) : insert M P Iv.empty v mh m = m := rfl

end IntervalMap

namespace IntervalMap

theorem firstMinAux_const {V : Type} (M : Nat) (b : Node V) :
    ∀ l : List (Node V), (∀ x ∈ l, ¬(ivSize M x.lo x.hi < ivSize M b.lo b.hi)) →
      firstMinAux M (some b) l = some b := by
  intro l
  induction l with
  | nil => intro _; rfl
  | cons n rest ih =>
    intro h
    have hn : ¬(ivSize M n.lo n.hi < ivSize M b.lo b.hi) := h n (by simp)
    simp only [firstMinAux, if_neg hn]
    exact ih (fun x hx => h x (by simp [hx]))

theorem bestFitGo_eq {V : Type} (M sz : Nat) :
    ∀ (l : List (Node V)) (best : Option (Node V)),
      (∀ b, best = some b → sz < ivSize M b.lo b.hi) →
      bestFitGo M sz l best = firstMinAux M best (l.filter (bfCand M sz)) := by
  intro l
  induction l with
  | nil => intro best _; simp [bestFitGo, firstMinAux]
  | cons n rest ih =>
    intro best hinv
    by_cases h1 : ivSize M n.lo n.hi = sz ∧ sz ≠ 0
    · have hc : bfCand M sz n = true := by simp [bfCand, h1.1, h1.2]
      have hmin : ∀ x ∈ rest.filter (bfCand M sz),
          ¬(ivSize M x.lo x.hi < ivSize M n.lo n.hi) := by
        intro x hx
        have hbf : bfCand M sz x = true := (List.mem_filter.mp hx).2
        have hx' : sz < ivSize M x.lo x.hi ∨ (ivSize M x.lo x.hi = sz ∧ ¬sz = 0) := by
          simpa [bfCand] using hbf
        rw [h1.1]
        omega
      rw [bestFitGo, if_pos h1, List.filter_cons_of_pos hc]
      cases best with
      | none =>
        simp only [firstMinAux]
        exact (firstMinAux_const M n _ hmin).symm
      | some b =>
        have hb := hinv b rfl
        simp only [firstMinAux]
        rw [if_pos (by rw [h1.1]; exact hb)]
        exact (firstMinAux_const M n _ hmin).symm
    · by_cases h2 : improves M sz n best = true
      · have hlt : sz < ivSize M n.lo n.hi := by
          cases best with
          | none => simpa [improves] using h2
          | some b =>
            have h2' : sz < ivSize M n.lo n.hi ∧
                ivSize M n.lo n.hi < ivSize M b.lo b.hi := by
              simpa [improves] using h2
            exact h2'.1
        have hc : bfCand M sz n = true := by simp [bfCand, hlt]
        rw [bestFitGo, if_neg h1, if_pos h2, List.filter_cons_of_pos hc]
        cases best with
        | none =>
          simp only [firstMinAux]
          refine ih (some n) ?_
          intro x hx
          injection hx with hx
          subst hx
          exact hlt
        | some b =>
          have h2' : sz < ivSize M n.lo n.hi ∧
              ivSize M n.lo n.hi < ivSize M b.lo b.hi := by
            simpa [improves] using h2
          simp only [firstMinAux]
          rw [if_pos h2'.2]
          refine ih (some n) ?_
          intro x hx
          injection hx with hx
          subst hx
          exact hlt
      · by_cases h3 : bfCand M sz n = true
        · have hlt : sz < ivSize M n.lo n.hi := by
            have h3' : sz < ivSize M n.lo n.hi ∨ (ivSize M n.lo n.hi = sz ∧ ¬sz = 0) := by
              simpa [bfCand] using h3
            rcases h3' with h | h
            · exact h
            · exact absurd ⟨h.1, h.2⟩ h1
          cases best with
          | none => exact absurd (by simp [improves, hlt]) h2
          | some b =>
            have hnb : ¬(ivSize M n.lo n.hi < ivSize M b.lo b.hi) := by
              intro hx
              exact h2 (by simp [improves, hlt, hx])
            rw [bestFitGo, if_neg h1, if_neg h2, List.filter_cons_of_pos h3]
            simp only [firstMinAux]
            rw [if_neg hnb]
            exact ih (some b) hinv
        · have h3' : bfCand M sz n = false := by
            cases h : bfCand M sz n
            · rfl
            · exact absurd h h3
          rw [bestFitGo, if_neg h1, if_neg h2, List.filter_cons_of_neg (by simp [h3'])]
          exact ih best hinv

end IntervalMap

namespace IntervalMap

/-- Counterexample for claim C6: a map holding the single full-domain node
`[0,3]` over the 2-bit domain (machine interval size 0) and requested size 0.
The node's interval size "exactly equals" the requested size (and the node is
large in the `isLarge` sense used by `firstFit`), so the claim requires
`bestFit` to return it immediately, yet `bestFit` returns the end iterator:
the exact-match shortcut requires a nonzero size and the strict comparison
`size() > size` rejects the wrapped size 0. -/
theorem C6_counterexample :
    ivSize 4 0 3 = 0 ∧ isLarge 4 0 3 0 = true ∧
    bestFit 4 0 [⟨0, 3, (0 : Nat)⟩] = none := by decide

/-- Claim C6 (amended): `bestFit(size, start)` returns the first node at or
after `start` of minimal machine interval size among the candidates — the
nodes whose machine interval size (which wraps to 0 on a full-domain
interval) strictly exceeds the requested size, or equals a nonzero requested
size — and the end iterator exactly when there is no candidate.  In
particular a node of machine size exactly `size` is returned immediately only
when `size` is nonzero, and full-domain nodes are never returned. -/
theorem C6_bestFit_characterization {V : Type} (M sz : Nat) (start : List (Node V)) :
    bestFit M sz start = bestFitSpec M sz start :=
  bestFitGo_eq M sz start none (by intro b h; cases h)

end IntervalMap

namespace SymbolicSemantics

theorem two_pow_pos (w : Nat) : 0 < 2 ^ w :=
  Nat.pos_pow_of_pos w (by norm_num)

theorem eval_lt (r : Nat → Nat) (e : Expr) : eval r e < 2 ^ widthOf e := by
  cases e with
  | intLeaf w v => simpa [eval, widthOf] using Nat.mod_lt _ (two_pow_pos w)
  | varLeaf w n => simpa [eval, widthOf] using Nat.mod_lt _ (two_pow_pos w)
  | node1 w op a => simpa [eval, widthOf] using two_pow_pos w
  | node2 w op a b =>
    cases op <;> simpa [eval, widthOf] using Nat.mod_lt _ (two_pow_pos w)
  | node3 w op a b c =>
    cases op <;> simpa [eval, widthOf] using Nat.mod_lt _ (two_pow_pos w)

theorem is_known_intLeaf {e : Expr} (h : is_known e = true) :
    ∃ w v, e = Expr.intLeaf w v := by
  cases e <;> simp [is_known] at h ⊢

theorem widthOf_unsignedExtend (FromLen ToLen : Nat) (a : Expr)
    (h : widthOf a = FromLen) : widthOf (unsignedExtend FromLen ToLen a) = ToLen := by
  unfold unsignedExtend
  split_ifs with h1 h2 h3
  · simp [mkInt, widthOf]
  · rw [h, h2]
  · simp [widthOf]
  · simp [widthOf]

theorem eval_unsignedExtend (r : Nat → Nat) (FromLen ToLen : Nat) (a : Expr)
    (hw : widthOf a = FromLen) (hm : Masked a = true) (hle : FromLen ≤ ToLen) :
    eval r (unsignedExtend FromLen ToLen a) = eval r a := by
  unfold unsignedExtend
  split_ifs with h1 h2 h3
  · obtain ⟨w, v, rfl⟩ := is_known_intLeaf h1
    simp only [widthOf] at hw
    subst hw
    have hv : v < 2 ^ w := by simpa [Masked] using hm
    have hv' : v < 2 ^ ToLen := lt_of_lt_of_le hv (Nat.pow_le_pow_right (by norm_num) hle)
    simp [mkInt, eval, get_value, Nat.mod_eq_of_lt hv, Nat.mod_eq_of_lt hv']
  · rfl
  · omega
  · have h4 : eval r a < 2 ^ ToLen := by
      have h5 := eval_lt r a
      rw [hw] at h5
      exact lt_of_lt_of_le h5 (Nat.pow_le_pow_right (by norm_num) hle)
    simp [eval, Nat.mod_eq_of_lt h4]

theorem widthOf_add (Len : Nat) (a b : Expr) (ha : widthOf a = Len)
    (hb : widthOf b = Len) : widthOf (add Len a b) = Len := by
  unfold add
  split_ifs
  · simp [mkInt, widthOf]
  · exact hb
  · simp [widthOf]
  · exact ha
  · simp [widthOf]

theorem eval_add (r : Nat → Nat) (Len : Nat) (a b : Expr) (ha : widthOf a = Len)
    (hb : widthOf b = Len) :
    eval r (add Len a b) = (eval r a + eval r b) % 2 ^ Len := by
  unfold add
  split_ifs with h1 h2 h3 h4
  · obtain ⟨wa, va, rfl⟩ := is_known_intLeaf h1
    obtain ⟨wb, vb, rfl⟩ := is_known_intLeaf h2
    simp only [widthOf] at ha hb
    subst ha
    subst hb
    simp [mkInt, eval, get_value, Nat.add_mod]
  · obtain ⟨wa, va, rfl⟩ := is_known_intLeaf h1
    simp only [widthOf] at ha
    subst ha
    have hz : va = 0 := by simpa [get_value] using h3
    subst hz
    have : eval r b < 2 ^ wa := by rw [← hb]; exact eval_lt r b
    simp [eval, Nat.mod_eq_of_lt this]
  · simp [eval]
  · have h4' : is_known b = true ∧ get_value b = 0 := by simpa using h4
    obtain ⟨wb, vb, rfl⟩ := is_known_intLeaf h4'.1
    simp only [widthOf] at hb
    subst hb
    have hz : vb = 0 := by simpa [get_value] using h4'.2
    subst hz
    have : eval r a < 2 ^ wb := by rw [← ha]; exact eval_lt r a
    simp [eval, Nat.mod_eq_of_lt this]
  · simp [eval]

end SymbolicSemantics

namespace SymbolicSemantics

/-- Claim C5 (amended): for the machine-arithmetic semantics of the operator
algebra, `addWithCarries(a, b, c)` returns a sum equal to `a + b + zext(c)`
at width `w`, and its `carry_out` equals bits `[1, w+1)` — not bits
`[0, w)` — of `aa xor bb xor sumco`, where `aa`, `bb` are the `(w+1)`-bit
zero-extensions of the operands and `sumco` their `(w+1)`-bit sum with the
carry-in; equivalently `carry_out[i] = aa[i+1] xor bb[i+1] xor sumco[i+1]`. -/
theorem C5_addWithCarries (Len : Nat) (a b c : Expr) (r : Nat → Nat)
    (hL : 0 < Len)
    (ha : widthOf a = Len) (hb : widthOf b = Len) (hc : widthOf c = 1)
    (hma : Masked a = true) (hmb : Masked b = true) (hmc : Masked c = true) :
    eval r (addWithCarries Len a b c).1 = (eval r a + eval r b + eval r c) % 2 ^ Len ∧
    eval r (addWithCarries Len a b c).2 =
      (eval r a ^^^ (eval r b ^^^ (eval r a + eval r b + eval r c) % 2 ^ (Len + 1))) / 2
        % 2 ^ Len := by
  have hu : eval r (unsignedExtend 1 Len c) = eval r c :=
    eval_unsignedExtend r 1 Len c hc hmc hL
  have hwu : widthOf (unsignedExtend 1 Len c) = Len :=
    widthOf_unsignedExtend 1 Len c hc
  have haa : eval r (unsignedExtend Len (Len + 1) a) = eval r a :=
    eval_unsignedExtend r Len (Len + 1) a ha hma (Nat.le_succ Len)
  have hwaa : widthOf (unsignedExtend Len (Len + 1) a) = Len + 1 :=
    widthOf_unsignedExtend Len (Len + 1) a ha
  have hbb : eval r (unsignedExtend Len (Len + 1) b) = eval r b :=
    eval_unsignedExtend r Len (Len + 1) b hb hmb (Nat.le_succ Len)
  have hwbb : widthOf (unsignedExtend Len (Len + 1) b) = Len + 1 :=
    widthOf_unsignedExtend Len (Len + 1) b hb
  have hcc : eval r (unsignedExtend 1 (Len + 1) c) = eval r c :=
    eval_unsignedExtend r 1 (Len + 1) c hc hmc (by omega)
  have hwcc : widthOf (unsignedExtend 1 (Len + 1) c) = Len + 1 :=
    widthOf_unsignedExtend 1 (Len + 1) c hc
  have hA : eval r a < 2 ^ Len := by
    have h5 := eval_lt r a
    rwa [ha] at h5
  have hB : eval r b < 2 ^ Len := by
    have h5 := eval_lt r b
    rwa [hb] at h5
  have hpow : (2 : Nat) ^ Len < 2 ^ (Len + 1) := Nat.pow_lt_pow_succ (by norm_num)
  have hA' : eval r a < 2 ^ (Len + 1) := lt_trans hA hpow
  have hB' : eval r b < 2 ^ (Len + 1) := lt_trans hB hpow
  have hsumco : eval r (add (Len + 1) (unsignedExtend Len (Len + 1) a)
      (add (Len + 1) (unsignedExtend Len (Len + 1) b) (unsignedExtend 1 (Len + 1) c))) =
      (eval r a + eval r b + eval r c) % 2 ^ (Len + 1) := by
    rw [eval_add r (Len + 1) _ _ hwaa (widthOf_add (Len + 1) _ _ hwbb hwcc)]
    rw [eval_add r (Len + 1) _ _ hwbb hwcc, haa, hbb, hcc]
    rw [Nat.add_mod_mod, Nat.add_assoc]
  constructor
  · show eval r (add Len a (add Len b (unsignedExtend 1 Len c))) = _
    rw [eval_add r Len a _ ha (widthOf_add Len b _ hb hwu)]
    rw [eval_add r Len b _ hb hwu, hu]
    rw [Nat.add_mod_mod, Nat.add_assoc]
  · show eval r (extract 1 (Len + 1) (Len + 1)
      (xor_ (Len + 1) (unsignedExtend Len (Len + 1) a)
        (xor_ (Len + 1) (unsignedExtend Len (Len + 1) b) _))) = _
    rw [extract, if_neg (by norm_num), if_neg (by simp [xor_, is_known])]
    have h1m : eval r (mkInt 32 1) = 1 := by
      have h32 : (1 : Nat) < 2 ^ 32 := by norm_num
      simp [mkInt, eval, Nat.mod_eq_of_lt h32]
    have hS : (eval r a + eval r b + eval r c) % 2 ^ (Len + 1) < 2 ^ (Len + 1) :=
      Nat.mod_lt _ (two_pow_pos _)
    have hx2 : eval r b ^^^ (eval r a + eval r b + eval r c) % 2 ^ (Len + 1)
        < 2 ^ (Len + 1) := Nat.xor_lt_two_pow hB' hS
    have hx1 : eval r a ^^^ (eval r b ^^^ (eval r a + eval r b + eval r c) % 2 ^ (Len + 1))
        < 2 ^ (Len + 1) := Nat.xor_lt_two_pow hA' hx2
    simp only [eval, xor_, h1m]
    rw [hsumco] at *
    rw [haa, hbb]
    rw [Nat.mod_eq_of_lt hx2, Nat.mod_eq_of_lt hx1]
    simp [pow_one, Nat.add_sub_cancel]

end SymbolicSemantics

namespace SymbolicSemantics

/-- Counterexample for claim C5: at width 8 with the known operands `0x36`
and `0xE4` and carry-in 0 (the example in the `addWithCarries` doc comment),
the produced carry is `0xE4` (bits `[1,9)` of `aa xor bb xor sumco`), while
the claim's formula `carry_out[i] = a[i] xor b[i] xor sum[i]` (the XOR
truncated to the low `w` bits) gives `0xC8`. -/
theorem C5_counterexample :
    ¬ (eval (fun _ => 0) (addWithCarries 8 (mkInt 8 0x36) (mkInt 8 0xE4) (mkInt 1 0)).2 =
        (eval (fun _ => 0) (mkInt 8 0x36) ^^^
          (eval (fun _ => 0) (mkInt 8 0xE4) ^^^
            (eval (fun _ => 0) (mkInt 8 0x36) + eval (fun _ => 0) (mkInt 8 0xE4) +
              eval (fun _ => 0) (mkInt 1 0)) % 2 ^ 8))) := by
  decide

/-- Witness for the amended C5 at width 8 with an unknown first operand. -/
theorem C5_witness :
    eval (fun n => n) (addWithCarries 8 (Expr.varLeaf 8 100) (mkInt 8 7) (mkInt 1 1)).1 =
      (eval (fun n => n) (Expr.varLeaf 8 100) + eval (fun n => n) (mkInt 8 7) +
        eval (fun n => n) (mkInt 1 1)) % 2 ^ 8 ∧
    eval (fun n => n) (addWithCarries 8 (Expr.varLeaf 8 100) (mkInt 8 7) (mkInt 1 1)).2 =
      (eval (fun n => n) (Expr.varLeaf 8 100) ^^^
        (eval (fun n => n) (mkInt 8 7) ^^^
          (eval (fun n => n) (Expr.varLeaf 8 100) + eval (fun n => n) (mkInt 8 7) +
            eval (fun n => n) (mkInt 1 1)) % 2 ^ (8 + 1))) / 2 % 2 ^ 8 :=
  C5_addWithCarries 8 (Expr.varLeaf 8 100) (mkInt 8 7) (mkInt 1 1) (fun n => n)
    (by decide) (by decide) (by decide) (by decide) (by decide) (by decide) (by decide)

end SymbolicSemantics

namespace SymbolicSemantics

theorem must_alias_readCell (addr : Expr) (ctr k : Nat) (x : MemoryCell) :
    must_alias (readCell addr ctr k) x = (equal_to addr x.address && decide (k = x.nbytes)) :=
  rfl

theorem must_alias_writeCell (Len : Nat) (addr data : Expr) (x : MemoryCell) :
    must_alias (writeCell Len addr data) x =
      (equal_to addr x.address && decide (Len / 8 = x.nbytes)) :=
  rfl

theorem readScan_noMust_all (c : MemoryCell) :
    ∀ l al, readScan c l = .noMust al → ∀ m ∈ l, must_alias c m = false := by
  intro l
  induction l with
  | nil => intro al _ m hm; cases hm
  | cons x rest ih =>
    intro al h m hm
    by_cases hx : must_alias c x = true
    · rw [readScan, if_pos hx] at h
      split at h <;> simp at h
    · have hx' : must_alias c x = false := by
        cases h2 : must_alias c x
        · rfl
        · exact absurd h2 hx
      rcases List.mem_cons.mp hm with rfl | hm'
      · exact hx'
      · rw [readScan, if_neg hx] at h
        cases hrec : readScan c rest with
        | found nm ret => rw [hrec] at h; simp at h
        | noMust al' => exact ih al' hrec m hm'

theorem readScan_found_cons (c m : MemoryCell) (l : Memory)
    (hm : must_alias c m = true) (hcl : m.clobbered = false) :
    readScan c (m :: l) = .found (m :: l) m.data := by
  rw [readScan, if_pos hm, if_neg (by simp [hcl])]

theorem readScan_append_found (c : MemoryCell) :
    ∀ (l1 : Memory) (l2 nm : Memory) (ret : Expr),
      (∀ m ∈ l1, must_alias c m = false) →
      readScan c l2 = .found nm ret →
      readScan c (l1 ++ l2) = .found (l1 ++ nm) ret := by
  intro l1
  induction l1 with
  | nil => intro l2 nm ret _ h; simpa using h
  | cons x rest ih =>
    intro l2 nm ret hno h
    have hx : must_alias c x = false := hno x (by simp)
    rw [List.cons_append, readScan, if_neg (by simp [hx]),
      ih l2 nm ret (fun m hm => hno m (by simp [hm])) h]
    rfl

theorem readScan_found_char (c : MemoryCell) :
    ∀ (l nm : Memory) (ret : Expr), readScan c l = .found nm ret →
      ∃ l1 m l2, l = l1 ++ m :: l2 ∧ (∀ x ∈ l1, must_alias c x = false) ∧
        must_alias c m = true ∧
        ((m.clobbered = true ∧
            nm = l1 ++ (⟨m.address, c.data, m.nbytes, false, m.written⟩ : MemoryCell) :: l2 ∧
            ret = c.data) ∨
          (m.clobbered = false ∧ nm = l ∧ ret = m.data)) := by
  intro l
  induction l with
  | nil => intro nm ret h; simp [readScan] at h
  | cons x rest ih =>
    intro nm ret h
    by_cases hx : must_alias c x = true
    · rw [readScan, if_pos hx] at h
      by_cases hcl : x.clobbered = true
      · rw [if_pos (by simp [hcl])] at h
        cases h
        exact ⟨[], x, rest, by simp, by simp, hx, Or.inl ⟨hcl, by simp, rfl⟩⟩
      · have hcl' : x.clobbered = false := by
          cases h2 : x.clobbered
          · rfl
          · exact absurd h2 hcl
        rw [if_neg (by simp [hcl'])] at h
        cases h
        exact ⟨[], x, rest, by simp, by simp, hx, Or.inr ⟨hcl', rfl, rfl⟩⟩
    · have hx' : must_alias c x = false := by
        cases h2 : must_alias c x
        · rfl
        · exact absurd h2 hx
      rw [readScan, if_neg hx] at h
      cases hrec : readScan c rest with
      | noMust al => rw [hrec] at h; simp at h
      | found nm' ret' =>
        rw [hrec] at h
        cases h
        obtain ⟨l1, m, l2, hsplit, hno, hm, hcase⟩ := ih _ _ hrec
        refine ⟨x :: l1, m, l2, by simp [hsplit], ?_, hm, ?_⟩
        · intro y hy
          rcases List.mem_cons.mp hy with rfl | hy'
          · exact hx'
          · exact hno y hy'
        · rcases hcase with ⟨h1, h2, h3⟩ | ⟨h1, h2, h3⟩
          · exact Or.inl ⟨h1, by simp [h2], h3⟩
          · exact Or.inr ⟨h1, by simp [hsplit, h2], h3⟩

theorem find_must_some (c : MemoryCell) :
    ∀ (l : Memory) (m : MemoryCell), find_must c l = some m →
      must_alias c m = true ∧ m ∈ l := by
  intro l
  induction l with
  | nil => intro m h; simp [find_must] at h
  | cons x rest ih =>
    intro m h
    by_cases hx : must_alias c x = true
    · rw [find_must, if_pos hx] at h
      cases h
      exact ⟨hx, by simp⟩
    · rw [find_must, if_neg hx] at h
      obtain ⟨h1, h2⟩ := ih m h
      exact ⟨h1, by simp [h2]⟩

theorem find_must_none_of (c : MemoryCell) :
    ∀ l : Memory, (∀ m ∈ l, must_alias c m = false) → find_must c l = none := by
  intro l
  induction l with
  | nil => intro _; rfl
  | cons x rest ih =>
    intro h
    rw [find_must, if_neg (by simp [h x (by simp)])]
    exact ih (fun m hm => h m (by simp [hm]))

theorem readScan_noMust_of (c : MemoryCell) :
    ∀ l : Memory, (∀ m ∈ l, must_alias c m = false) → (∀ m ∈ l, m.written = false) →
      readScan c l = .noMust false := by
  intro l
  induction l with
  | nil => intro _ _; rfl
  | cons x rest ih =>
    intro h1 h2
    rw [readScan, if_neg (by simp [h1 x (by simp)]),
      ih (fun m hm => h1 m (by simp [hm])) (fun m hm => h2 m (by simp [hm]))]
    simp [h2 x (by simp)]

end SymbolicSemantics

namespace SymbolicSemantics

/-- Claim C3: two successive `mem_read`s at the same address and width, with
no intervening write, return structurally equal values.  The hypothesis on
`orig` states that the original state's cells are never clobbered, which
holds for every reachable policy state (cells enter `orig_state.mem` only as
fresh unclobbered cells pushed by `mem_read`, and `mem_write` asserts it is
never applied to the original state); the C++ code asserts exactly this on
the path that copies a cell out of the original state. -/
theorem C3_read_read_stable (Len : Nat) (isOrig : Bool) (orig mem : Memory)
    (addr : Expr) (ctr : Nat)
    (horig : ∀ m ∈ orig, m.clobbered = false) :
    equal_to
      (mem_read Len isOrig (mem_read Len isOrig orig mem addr ctr).orig
        (mem_read Len isOrig orig mem addr ctr).mem addr
        (mem_read Len isOrig orig mem addr ctr).ctr).val
      (mem_read Len isOrig orig mem addr ctr).val = true := by
  cases hscan : readScan (readCell addr ctr (Len / 8)) mem with
  | found nm ret =>
    obtain ⟨l1, m, l2, hsplit, hno, hm, hcase⟩ := readScan_found_char _ _ _ _ hscan
    rcases hcase with ⟨hcl, hnm, hret⟩ | ⟨hcl, hnm, hret⟩
    · -- the first read un-clobbered the cell and overwrote its data
      have hscan2 : readScan (readCell addr (ctr + 1) (Len / 8)) nm =
          .found nm (readCell addr ctr (Len / 8)).data := by
        rw [hnm]
        refine readScan_append_found _ l1 _ _ _ (fun x hx => hno x hx) ?_
        exact readScan_found_cons _ _ _ hm rfl
      simp only [mem_read, hscan, hscan2, hret]
      exact equal_to_refl _
    · -- the cell was found intact; the second read finds the same cell
      have hscan2 : readScan (readCell addr (ctr + 1) (Len / 8)) nm =
          .found nm m.data := by
        rw [hnm, hsplit]
        refine readScan_append_found _ l1 _ _ _ (fun x hx => hno x hx) ?_
        exact readScan_found_cons _ _ _ hm hcl
      simp only [mem_read, hscan, hscan2, hret]
      exact equal_to_refl _
  | noMust al =>
    have hnomust : ∀ x ∈ mem, must_alias (readCell addr ctr (Len / 8)) x = false :=
      readScan_noMust_all _ mem al hscan
    by_cases hcond : (!al && !isOrig) = true
    · cases hfm : find_must (readCell addr ctr (Len / 8)) orig with
      | some m =>
        obtain ⟨hm, hmem⟩ := find_must_some _ orig m hfm
        have hscan2 : readScan (readCell addr (ctr + 1) (Len / 8)) (mem ++ [m]) =
            .found (mem ++ [m]) m.data := by
          refine readScan_append_found _ mem _ _ _ hnomust ?_
          exact readScan_found_cons _ _ _ hm (horig m hmem)
        simp only [mem_read, hscan, hcond, if_pos, hfm, hscan2]
        exact equal_to_refl _
      | none =>
        have hscan2 : readScan (readCell addr (ctr + 1) (Len / 8))
            (mem ++ [readCell addr ctr (Len / 8)]) =
            .found (mem ++ [readCell addr ctr (Len / 8)])
              (readCell addr ctr (Len / 8)).data := by
          refine readScan_append_found _ mem _ _ _ hnomust ?_
          exact readScan_found_cons _ _ _ (by simp [readCell, must_alias, equal_to_refl]) rfl
        simp only [mem_read, hscan, hcond, if_pos, hfm, hscan2]
        exact equal_to_refl _
    · have hcond' : (!al && !isOrig) = false := by
        cases h2 : (!al && !isOrig)
        · rfl
        · exact absurd h2 hcond
      have hscan2 : readScan (readCell addr (ctr + 1) (Len / 8))
          (mem ++ [readCell addr ctr (Len / 8)]) =
          .found (mem ++ [readCell addr ctr (Len / 8)])
            (readCell addr ctr (Len / 8)).data := by
        refine readScan_append_found _ mem _ _ _ hnomust ?_
        exact readScan_found_cons _ _ _ (by simp [readCell, must_alias, equal_to_refl]) rfl
      simp only [mem_read, hscan, hcond', Bool.false_eq_true, if_false, hscan2]
      exact equal_to_refl _

/-- Witness for C3: two reads of address 5 at width 32 from a fresh state. -/
theorem C3_witness :
    equal_to
      (mem_read 32 false (mem_read 32 false [] [] (mkInt 32 5) 0).orig
        (mem_read 32 false [] [] (mkInt 32 5) 0).mem (mkInt 32 5)
        (mem_read 32 false [] [] (mkInt 32 5) 0).ctr).val
      (mem_read 32 false [] [] (mkInt 32 5) 0).val = true :=
  C3_read_read_stable 32 false [] [] (mkInt 32 5) 0 (by simp)

end SymbolicSemantics

namespace SymbolicSemantics

theorem writeLoop_eq (dpm : Bool) (c : MemoryCell) :
    ∀ l : Memory, writeLoop dpm c l =
      (l.map (writeXform dpm c), l.any (fun m => must_alias c m)) := by
  intro l
  induction l with
  | nil => rfl
  | cons x rest ih =>
    by_cases hx : must_alias c x = true
    · simp [writeLoop, writeXform, ih, hx]
    · have hx' : must_alias c x = false := by
        cases h2 : must_alias c x
        · rfl
        · exact absurd h2 hx
      simp [writeLoop, writeXform, ih, hx', memory_reference_type, may_alias]

theorem must_alias_writeXform (dpm : Bool) (c m : MemoryCell) :
    must_alias c (writeXform dpm c m) = must_alias c m := by
  unfold writeXform
  split_ifs with h1 h2 h3
  · rw [h1]
    simp [must_alias, equal_to_refl]
  · rfl
  · simp [must_alias]
  · rfl

theorem any_first_split {α : Type} (p : α → Bool) :
    ∀ l : List α, l.any p = true →
      ∃ l1 x l2, l = l1 ++ x :: l2 ∧ (∀ y ∈ l1, p y = false) ∧ p x = true := by
  intro l
  induction l with
  | nil => intro h; simp at h
  | cons a rest ih =>
    intro h
    by_cases ha : p a = true
    · exact ⟨[], a, rest, by simp, by simp, ha⟩
    · have ha' : p a = false := by
        cases h2 : p a
        · rfl
        · exact absurd h2 ha
      have hrest : rest.any p = true := by
        rcases List.any_eq_true.mp h with ⟨y, hy, hpy⟩
        rcases List.mem_cons.mp hy with rfl | hy'
        · exact absurd hpy ha
        · exact List.any_eq_true.mpr ⟨y, hy', hpy⟩
      obtain ⟨l1, x, l2, hsplit, hno, hx⟩ := ih hrest
      refine ⟨a :: l1, x, l2, by simp [hsplit], ?_, hx⟩
      intro y hy
      rcases List.mem_cons.mp hy with rfl | hy'
      · exact ha'
      · exact hno y hy'

theorem unsignedExtend_roundtrip (Len : Nat) (data : Expr)
    (hw : widthOf data = Len) (hm : Masked data = true)
    (hLen : Len = 8 ∨ Len = 16 ∨ Len = 32)
    (hkd : Len = 32 ∨ is_known data = true) :
    unsignedExtend 32 Len (unsignedExtend Len 32 data) = data := by
  by_cases hk : is_known data = true
  · obtain ⟨w, v, rfl⟩ := is_known_intLeaf hk
    simp only [widthOf] at hw
    subst hw
    have hv : v < 2 ^ w := by simpa [Masked] using hm
    have hv32 : v < 2 ^ 32 := by
      rcases hLen with h | h | h <;> subst h <;>
        exact lt_of_lt_of_le hv (Nat.pow_le_pow_right (by norm_num) (by norm_num))
    have hinner : unsignedExtend w 32 (Expr.intLeaf w v) = Expr.intLeaf 32 v := by
      rw [unsignedExtend, if_pos hk]
      simp only [mkInt, get_value]
      rw [Nat.mod_eq_of_lt hv32]
    rw [hinner, unsignedExtend, if_pos (by simp [is_known])]
    simp [mkInt, get_value, Nat.mod_eq_of_lt hv]
  · have h32 : Len = 32 := by
      rcases hkd with h | h
      · exact h
      · exact absurd h hk
    subst h32
    have hinner : unsignedExtend 32 32 data = data := by
      rw [unsignedExtend, if_neg hk, if_pos rfl]
    rw [hinner, hinner]

/-- Claim C2 (amended): a `mem_write<Len>` followed by a `mem_read<Len>` at a
must-aliasing address with no intervening write returns a value structurally
equal to the written data, provided `Len = 32` or the data is a known
constant.  For `Len` of 8 or 16 with a non-constant data expression the read
returns the `EXTRACT` of the `UEXTEND` of the data (semantically but not
structurally equal); see the counterexample. -/
theorem C2_read_after_write (Len : Nat) (dpm : Bool) (s : State) (orig : Memory)
    (addr addr2 data : Expr) (ctr : Nat)
    (hw : widthOf data = Len) (hm : Masked data = true)
    (hLen : Len = 8 ∨ Len = 16 ∨ Len = 32)
    (hkd : Len = 32 ∨ is_known data = true)
    (ha2 : equal_to addr2 addr = true) :
    equal_to
      (mem_read Len false orig (mem_write Len dpm s addr data).mem addr2 ctr).val
      data = true := by
  rw [show addr2 = addr from (equal_to_iff addr2 addr).mp ha2]
  have hmem : (mem_write Len dpm s addr data).mem =
      (if (s.mem.any fun m => must_alias (writeCell Len addr data) m) = true then
        s.mem.map (writeXform dpm (writeCell Len addr data))
      else s.mem.map (writeXform dpm (writeCell Len addr data)) ++ [writeCell Len addr data]) := by
    simp only [mem_write, writeLoop_eq]
  have hprobe : ∀ x, must_alias (readCell addr ctr (Len / 8)) x =
      must_alias (writeCell Len addr data) x := fun x => rfl
  have hcdata : (writeCell Len addr data).data = unsignedExtend Len 32 data := rfl
  have hfound : readScan (readCell addr ctr (Len / 8)) (mem_write Len dpm s addr data).mem =
      .found (mem_write Len dpm s addr data).mem (unsignedExtend Len 32 data) := by
    rw [hmem]
    split_ifs with hany
    · obtain ⟨l1, x, l2, hsplit, hno, hx⟩ :=
        any_first_split (fun m => must_alias (writeCell Len addr data) m) s.mem hany
      rw [hsplit, List.map_append, List.map_cons]
      refine readScan_append_found _ _ _ _ _ ?_ ?_
      · intro y hy
        rcases List.mem_map.mp hy with ⟨z, hz, rfl⟩
        rw [hprobe, must_alias_writeXform]
        exact hno z hz
      · rw [show writeXform dpm (writeCell Len addr data) x = writeCell Len addr data from
          by rw [writeXform, if_pos hx]]
        exact readScan_found_cons _ _ _
          (by rw [hprobe]; simp [must_alias, writeCell, equal_to_refl]) rfl
    · refine readScan_append_found _ _ _ _ _ ?_ ?_
      · intro y hy
        rcases List.mem_map.mp hy with ⟨z, hz, rfl⟩
        rw [hprobe, must_alias_writeXform]
        cases h2 : must_alias (writeCell Len addr data) z
        · rfl
        · exact absurd (List.any_eq_true.mpr ⟨z, hz, h2⟩) hany
      · exact readScan_found_cons _ _ _
          (by rw [hprobe]; simp [must_alias, writeCell, equal_to_refl]) rfl
  simp only [mem_read, hfound]
  rw [unsignedExtend_roundtrip Len data hw hm hLen hkd]
  exact equal_to_refl data

/-- Counterexample for claim C2: at width 8 with a non-constant written value
(the unknown variable 77), the value returned by the must-aliasing read is
the tree `EXTRACT(0, 8, UEXTEND(32, v77))`, which is not structurally equal
to the written data `v77`. -/
theorem C2_counterexample :
    equal_to
      (mem_read 8 false []
        (mem_write 8 false ⟨mkInt 32 0, [], [], [], []⟩ (mkInt 32 0x1000)
          (Expr.varLeaf 8 77)).mem
        (mkInt 32 0x1000) 99).val
      (Expr.varLeaf 8 77) = false := by decide

/-- Witness for the amended C2: the specification's must-alias
read-after-write scenario, `writeMemory<32>(0, number<32>(0x1000),
number<32>(0xdead))` on a fresh policy (both memories empty) followed by
`readMemory<32>` of the same address, returns a value structurally equal to
`number<32>(0xdead)`. -/
theorem C2_witness :
    equal_to
      (mem_read 32 false []
        (mem_write 32 false ⟨mkInt 32 0, [], [], [], []⟩ (mkInt 32 0x1000)
          (mkInt 32 0xdead)).mem
        (mkInt 32 0x1000) 62).val
      (mkInt 32 0xdead) = true :=
  C2_read_after_write 32 false ⟨mkInt 32 0, [], [], [], []⟩ [] (mkInt 32 0x1000)
    (mkInt 32 0x1000) (mkInt 32 0xdead) 62 (by decide) (by decide)
    (by decide) (by decide) (by decide)

end SymbolicSemantics

namespace SymbolicSemantics

/-- Claim C9: a `mem_read<Len>` on a non-original state with no must-aliasing
cell in the state, no may-aliasing written cell in the state (under the
conservative may-alias every cell may alias, so no written cell at all), and
no must-aliasing cell in the original state, appends one cell carrying the
fresh unknown data to both memories, returns its zero-extension to the read
width, and a subsequent read of the same address from either state returns a
structurally equal value. -/
theorem C9_fresh_read_materializes (Len : Nat) (orig mem : Memory) (addr : Expr)
    (ctr : Nat)
    (h1 : ∀ m ∈ mem, must_alias (readCell addr ctr (Len / 8)) m = false)
    (h2 : ∀ m ∈ mem, m.written = false)
    (h3 : ∀ m ∈ orig, must_alias (readCell addr ctr (Len / 8)) m = false) :
    (mem_read Len false orig mem addr ctr).val =
      unsignedExtend 32 Len (Expr.varLeaf 32 ctr) ∧
    (mem_read Len false orig mem addr ctr).orig = orig ++ [readCell addr ctr (Len / 8)] ∧
    (mem_read Len false orig mem addr ctr).mem = mem ++ [readCell addr ctr (Len / 8)] ∧
    (mem_read Len false orig mem addr ctr).ctr = ctr + 1 ∧
    equal_to
      (mem_read Len false (orig ++ [readCell addr ctr (Len / 8)])
        (mem ++ [readCell addr ctr (Len / 8)]) addr (ctr + 1)).val
      (mem_read Len false orig mem addr ctr).val = true ∧
    equal_to
      (mem_read Len true (orig ++ [readCell addr ctr (Len / 8)])
        (orig ++ [readCell addr ctr (Len / 8)]) addr (ctr + 1)).val
      (mem_read Len false orig mem addr ctr).val = true := by
  have hscan : readScan (readCell addr ctr (Len / 8)) mem = .noMust false :=
    readScan_noMust_of _ mem h1 h2
  have hfm : find_must (readCell addr ctr (Len / 8)) orig = none :=
    find_must_none_of _ orig h3
  have hmustc : ∀ ctr' : Nat,
      must_alias (readCell addr ctr' (Len / 8)) (readCell addr ctr (Len / 8)) = true := by
    intro ctr'
    simp [readCell, must_alias, equal_to_refl]
  have hscan2 : readScan (readCell addr (ctr + 1) (Len / 8))
      (mem ++ [readCell addr ctr (Len / 8)]) =
      .found (mem ++ [readCell addr ctr (Len / 8)]) (readCell addr ctr (Len / 8)).data := by
    refine readScan_append_found _ mem _ _ _ h1 ?_
    exact readScan_found_cons _ _ _ (hmustc (ctr + 1)) rfl
  have hscan3 : readScan (readCell addr (ctr + 1) (Len / 8))
      (orig ++ [readCell addr ctr (Len / 8)]) =
      .found (orig ++ [readCell addr ctr (Len / 8)]) (readCell addr ctr (Len / 8)).data := by
    refine readScan_append_found _ orig _ _ _ h3 ?_
    exact readScan_found_cons _ _ _ (hmustc (ctr + 1)) rfl
  have hfm2 := hfm
  simp only [readCell] at hfm2
  have hval : (mem_read Len false orig mem addr ctr).val =
      unsignedExtend 32 Len (Expr.varLeaf 32 ctr) := by
    simp only [mem_read, hscan]
    simp [hfm2, readCell]
  refine ⟨hval, ?_, ?_, ?_, ?_, ?_⟩
  · simp only [mem_read, hscan]
    simp [hfm2, readCell]
  · simp only [mem_read, hscan]
    simp [hfm2, readCell]
  · simp only [mem_read, hscan]
    simp [hfm2, readCell]
  · rw [hval]
    simp only [mem_read, hscan2]
    exact equal_to_refl _
  · rw [hval]
    simp only [mem_read, hscan3]
    exact equal_to_refl _

/-- Witness for C9: a fresh 16-bit read of address 7 from empty memories. -/
theorem C9_witness :
    (mem_read 16 false [] [] (mkInt 32 7) 0).val =
      unsignedExtend 32 16 (Expr.varLeaf 32 0) ∧
    (mem_read 16 false [] [] (mkInt 32 7) 0).orig = [] ++ [readCell (mkInt 32 7) 0 (16 / 8)] ∧
    (mem_read 16 false [] [] (mkInt 32 7) 0).mem = [] ++ [readCell (mkInt 32 7) 0 (16 / 8)] ∧
    (mem_read 16 false [] [] (mkInt 32 7) 0).ctr = 0 + 1 ∧
    equal_to
      (mem_read 16 false ([] ++ [readCell (mkInt 32 7) 0 (16 / 8)])
        ([] ++ [readCell (mkInt 32 7) 0 (16 / 8)]) (mkInt 32 7) (0 + 1)).val
      (mem_read 16 false [] [] (mkInt 32 7) 0).val = true ∧
    equal_to
      (mem_read 16 true ([] ++ [readCell (mkInt 32 7) 0 (16 / 8)])
        ([] ++ [readCell (mkInt 32 7) 0 (16 / 8)]) (mkInt 32 7) (0 + 1)).val
      (mem_read 16 false [] [] (mkInt 32 7) 0).val = true :=
  C9_fresh_read_materializes 16 [] [] (mkInt 32 7) 0 (by simp) (by simp) (by simp)

/-- Claim C10: `mem_write` leaves the instruction pointer, the general
purpose registers, the segment registers and the flags unchanged, and every
existing cell that does not must-alias the written cell keeps its address,
data, size and written flag, the only permitted mutation being its clobbered
flag. -/
theorem C10_write_frame (Len : Nat) (dpm : Bool) (s : State) (addr data : Expr)
    (i : Nat) (hi : i < s.mem.length)
    (hna : must_alias (writeCell Len addr data) s.mem[i] = false) :
    (mem_write Len dpm s addr data).ip = s.ip ∧
    (mem_write Len dpm s addr data).gpr = s.gpr ∧
    (mem_write Len dpm s addr data).segreg = s.segreg ∧
    (mem_write Len dpm s addr data).flag = s.flag ∧
    ∃ hj : i < (mem_write Len dpm s addr data).mem.length,
      ((mem_write Len dpm s addr data).mem.get ⟨i, hj⟩).address = s.mem[i].address ∧
      ((mem_write Len dpm s addr data).mem.get ⟨i, hj⟩).data = s.mem[i].data ∧
      ((mem_write Len dpm s addr data).mem.get ⟨i, hj⟩).nbytes = s.mem[i].nbytes ∧
      ((mem_write Len dpm s addr data).mem.get ⟨i, hj⟩).written = s.mem[i].written ∧
      (((mem_write Len dpm s addr data).mem.get ⟨i, hj⟩).clobbered = s.mem[i].clobbered ∨
        ((mem_write Len dpm s addr data).mem.get ⟨i, hj⟩).clobbered = true) := by
  refine ⟨rfl, rfl, rfl, rfl, ?_⟩
  have hmem : (mem_write Len dpm s addr data).mem =
      (if (s.mem.any fun m => must_alias (writeCell Len addr data) m) = true then
        s.mem.map (writeXform dpm (writeCell Len addr data))
      else s.mem.map (writeXform dpm (writeCell Len addr data)) ++ [writeCell Len addr data]) := by
    simp only [mem_write, writeLoop_eq]
  have hlen : s.mem.length ≤ (mem_write Len dpm s addr data).mem.length := by
    rw [hmem]
    split_ifs <;> simp
  refine ⟨lt_of_lt_of_le hi hlen, ?_⟩
  have hget : (mem_write Len dpm s addr data).mem.get ⟨i, lt_of_lt_of_le hi hlen⟩ =
      writeXform dpm (writeCell Len addr data) s.mem[i] := by
    rcases h : (s.mem.any fun m => must_alias (writeCell Len addr data) m) with _ | _
    · have hm2 : (mem_write Len dpm s addr data).mem =
          s.mem.map (writeXform dpm (writeCell Len addr data)) ++ [writeCell Len addr data] := by
        rw [hmem, h]
        rfl
      simp only [List.get_eq_getElem] at hm2 ⊢
      simp [hm2, List.getElem_append_left, hi]
    · have hm2 : (mem_write Len dpm s addr data).mem =
          s.mem.map (writeXform dpm (writeCell Len addr data)) := by
        rw [hmem, h]
        rfl
      simp only [List.get_eq_getElem] at hm2 ⊢
      simp [hm2]
  rw [hget]
  rw [writeXform, if_neg (by simp [hna]),
    if_neg (by simp [memory_reference_type]), if_pos (by simp [may_alias])]
  exact ⟨rfl, rfl, rfl, rfl, Or.inr rfl⟩

/-- Witness for C10: writing 32-bit `9` to address 8 over a state holding one
cell at the non-aliasing address 4. -/
theorem C10_witness :
    (mem_write 32 false
      ⟨mkInt 32 0, [], [], [], [⟨mkInt 32 4, mkInt 32 1, 4, false, false⟩]⟩
      (mkInt 32 8) (mkInt 32 9)).ip = mkInt 32 0 ∧
    (mem_write 32 false
      ⟨mkInt 32 0, [], [], [], [⟨mkInt 32 4, mkInt 32 1, 4, false, false⟩]⟩
      (mkInt 32 8) (mkInt 32 9)).gpr = [] := by
  have h := C10_write_frame 32 false
    ⟨mkInt 32 0, [], [], [], [⟨mkInt 32 4, mkInt 32 1, 4, false, false⟩]⟩
    (mkInt 32 8) (mkInt 32 9) 0 (by simp) (by decide)
  exact ⟨h.1, h.2.1⟩

end SymbolicSemantics

namespace IntervalMap

theorem pairwise_elim {V : Type} {R : Node V → Node V → Prop} :
    ∀ l : IMap V, l.Pairwise R → ∀ a ∈ l, ∀ b ∈ l, a = b ∨ R a b ∨ R b a := by
  intro l
  induction l with
  | nil => intro _ a ha; cases ha
  | cons x xs ih =>
    intro h a ha b hb
    obtain ⟨hx, hxs⟩ := List.pairwise_cons.mp h
    rcases List.mem_cons.mp ha with rfl | ha'
    · rcases List.mem_cons.mp hb with rfl | hb'
      · exact Or.inl rfl
      · exact Or.inr (Or.inl (hx b hb'))
    · rcases List.mem_cons.mp hb with rfl | hb'
      · exact Or.inr (Or.inr (hx a ha'))
      · exact ih hxs a ha' b hb'

theorem mapInsert_mem {V : Type} (n : Node V) :
    ∀ l : IMap V, ∀ x ∈ mapInsert n l, x = n ∨ x ∈ l := by
  intro l
  induction l with
  | nil => intro x hx; simpa [mapInsert] using hx
  | cons y ys ih =>
    intro x hx
    rw [mapInsert] at hx
    split_ifs at hx with h1 h2
    · rcases List.mem_cons.mp hx with rfl | hx'
      · exact Or.inl rfl
      · exact Or.inr hx'
    · rcases List.mem_cons.mp hx with rfl | hx'
      · exact Or.inr (by simp)
      · rcases ih x hx' with h | h
        · exact Or.inl h
        · exact Or.inr (by simp [h])
    · rcases List.mem_cons.mp hx with rfl | hx'
      · exact Or.inl rfl
      · exact Or.inr (by simp [hx'])

theorem mem_mapInsert_self {V : Type} (n : Node V) :
    ∀ l : IMap V, n ∈ mapInsert n l := by
  intro l
  induction l with
  | nil => simp [mapInsert]
  | cons y ys ih =>
    rw [mapInsert]
    split_ifs with h1 h2
    · simp
    · simp [ih]
    · simp

theorem mapInsert_pairwise {V : Type} {R : Node V → Node V → Prop} (n : Node V) :
    ∀ l : IMap V, l.Pairwise R →
      (∀ a ∈ l, ∀ b ∈ l, R a b → a.hi < b.hi) →
      (∀ x ∈ l, (x.hi < n.hi → R x n) ∧ (n.hi < x.hi → R n x) ∧ x.hi ≠ n.hi) →
      (mapInsert n l).Pairwise R := by
  intro l
  induction l with
  | nil => intro _ _ _; simp [mapInsert]
  | cons x xs ih =>
    intro hord himp hdi
    obtain ⟨hx, hxs⟩ := List.pairwise_cons.mp hord
    obtain ⟨hd1, hd2, hd3⟩ := hdi x (by simp)
    rw [mapInsert]
    split_ifs with h1 h2
    · -- n goes first
      refine List.pairwise_cons.mpr ⟨?_, hord⟩
      intro y hy
      rcases List.mem_cons.mp hy with rfl | hy'
      · exact hd2 h1
      · have : x.hi < y.hi := himp x (by simp) y (by simp [hy']) (hx y hy')
        exact (hdi y (by simp [hy'])).2.1 (lt_trans h1 this)
    · -- x stays first, recurse
      refine List.pairwise_cons.mpr ⟨?_, ?_⟩
      · intro y hy
        rcases mapInsert_mem n xs y hy with rfl | hy'
        · exact hd1 h2
        · exact hx y hy'
      · refine ih hxs ?_ ?_
        · intro a ha b hb
          exact himp a (by simp [ha]) b (by simp [hb])
        · intro y hy
          exact hdi y (by simp [hy])
    · exact absurd (by omega : x.hi = n.hi) hd3

theorem removeHi_append {V : Type} (h : Nat) :
    ∀ (u : IMap V) (L : Node V) (w : IMap V), L.hi = h → (∀ x ∈ u, x.hi ≠ h) →
      removeHi h (u ++ L :: w) = u ++ w := by
  intro u
  induction u with
  | nil =>
    intro L w hL _
    simp [removeHi, hL]
  | cons x xs ih =>
    intro L w hL hu
    rw [List.cons_append, removeHi, if_neg (hu x (by simp))]
    rw [ih L w hL (fun y hy => hu y (by simp [hy]))]
    rfl

theorem getLastD_mem_cons {α : Type} :
    ∀ (l : List α) (a : α), l.getLastD a ∈ a :: l := by
  intro l
  induction l with
  | nil => intro a; simp [List.getLastD]
  | cons x xs ih =>
    intro a
    rw [List.getLastD_cons]
    exact List.mem_cons_of_mem a (ih x)

theorem dropWhile_hi_bound {V : Type} (s : Nat) :
    ∀ m : IMap V, m.Pairwise NodeLt → (∀ n ∈ m, n.lo ≤ n.hi) →
      ∀ x ∈ m.dropWhile (fun n => n.hi < s), s ≤ x.hi := by
  intro m
  induction m with
  | nil => intro _ _ x hx; simp at hx
  | cons y ys ih =>
    intro hord hv x hx
    obtain ⟨hy, hys⟩ := List.pairwise_cons.mp hord
    by_cases hdrop : y.hi < s
    · rw [List.dropWhile_cons_of_pos (by simpa using hdrop)] at hx
      exact ih hys (fun n hn => hv n (by simp [hn])) x hx
    · rw [List.dropWhile_cons_of_neg (by simpa using hdrop)] at hx
      rcases List.mem_cons.mp hx with rfl | hx'
      · omega
      · have h1 : y.hi < x.lo := hy x hx'
        have h2 : x.lo ≤ x.hi := hv x (by simp [hx'])
        omega

theorem dropWhile_lo_bound {V : Type} (s : Nat) :
    ∀ m : IMap V, m.Pairwise NodeLt → (∀ n ∈ m, n.lo ≤ n.hi) →
      ∀ x ∈ m.dropWhile (fun n => n.lo ≤ s), s < x.lo := by
  intro m
  induction m with
  | nil => intro _ _ x hx; simp at hx
  | cons y ys ih =>
    intro hord hv x hx
    obtain ⟨hy, hys⟩ := List.pairwise_cons.mp hord
    by_cases hdrop : y.lo ≤ s
    · rw [List.dropWhile_cons_of_pos (by simpa using hdrop)] at hx
      exact ih hys (fun n hn => hv n (by simp [hn])) x hx
    · rw [List.dropWhile_cons_of_neg (by simpa using hdrop)] at hx
      rcases List.mem_cons.mp hx with rfl | hx'
      · omega
      · have h1 : y.hi < x.lo := hy x hx'
        have h2 : y.lo ≤ y.hi := hv y (by simp)
        omega

theorem dropWhile_eq_cons_of {α : Type} (p : α → Bool) :
    ∀ (l1 : List α) (n : α) (l2 : List α), (∀ x ∈ l1, p x = true) → p n = false →
      List.dropWhile p (l1 ++ n :: l2) = n :: l2 := by
  intro l1
  induction l1 with
  | nil =>
    intro n l2 _ hn
    rw [List.nil_append]
    exact List.dropWhile_cons_of_neg (by simp [hn])
  | cons x xs ih =>
    intro n l2 h1 hn
    rw [List.cons_append, List.dropWhile_cons_of_pos (h1 x (by simp))]
    exact ih n l2 (fun y hy => h1 y (by simp [hy])) hn

end IntervalMap

namespace IntervalMap

theorem dropWhile_head_not {α : Type} (p : α → Bool) :
    ∀ (l : List α) (y : α) (ys : List α), l.dropWhile p = y :: ys → p y = false := by
  intro l
  induction l with
  | nil => intro y ys h; simp at h
  | cons x xs ih =>
    intro y ys h
    by_cases hx : p x = true
    · rw [List.dropWhile_cons_of_pos hx] at h
      exact ih y ys h
    · have hx' : p x = false := by
        cases h2 : p x
        · rfl
        · exact absurd h2 hx
      rw [List.dropWhile_cons_of_neg (by simp [hx'])] at h
      cases h
      exact hx'

theorem find_mem {V : Type} (s : Nat) (m : IMap V) (n : Node V)
    (h : find s m = some n) : n ∈ m ∧ n.lo ≤ s ∧ s ≤ n.hi := by
  unfold find lowerBound at h
  split at h
  · exact absurd h (by simp)
  · rename_i y ys hlb
    by_cases hy : s < y.lo
    · rw [if_pos hy] at h
      simp at h
    · rw [if_neg hy] at h
      cases h
      have hmem : n ∈ m := (List.dropWhile_sublist _).subset (by rw [hlb]; simp)
      have hhd : ¬(n.hi < s) := by simpa using dropWhile_head_not _ m n ys hlb
      exact ⟨hmem, by omega, by omega⟩

theorem find_none {V : Type} (s : Nat) (m : IMap V) (hord : m.Pairwise NodeLt)
    (hv : ∀ n ∈ m, n.lo ≤ n.hi) (h : find s m = none) :
    ∀ x ∈ m, ¬(x.lo ≤ s ∧ s ≤ x.hi) := by
  intro x hx hcontra
  unfold find lowerBound at h
  split at h
  · rename_i hlb
    have hall : ∀ y ∈ m, y.hi < s := by
      intro y hy
      have h2 := List.dropWhile_eq_nil_iff.mp hlb y hy
      simpa using h2
    exact absurd (hall x hx) (by omega)
  · rename_i y ys hlb
    by_cases hy : s < y.lo
    · have hxsplit : x ∈ m.takeWhile (fun n => n.hi < s) ∨ x ∈ y :: ys := by
        have hm : m.takeWhile (fun n => n.hi < s) ++ m.dropWhile (fun n => n.hi < s) = m :=
          List.takeWhile_append_dropWhile _ _
        rw [← hm] at hx
        rcases List.mem_append.mp hx with h1 | h1
        · exact Or.inl h1
        · exact Or.inr (by rwa [hlb] at h1)
      rcases hxsplit with h1 | h1
      · have h2 := List.mem_takeWhile_imp h1
        simp at h2
        omega
      · have hord2 : (y :: ys).Pairwise NodeLt := by
          rw [← hlb]
          exact hord.sublist (List.dropWhile_sublist _)
        rcases List.mem_cons.mp h1 with rfl | h1'
        · omega
        · have hylt : NodeLt y x := (List.pairwise_cons.mp hord2).1 x h1'
          have hyv : y.lo ≤ y.hi := hv y ((List.dropWhile_sublist _).subset (by rw [hlb]; simp))
          unfold NodeLt at hylt
          omega
    · rw [if_neg hy] at h
      simp at h

theorem find_unique {V : Type} (s : Nat) (m : IMap V) (hord : m.Pairwise NodeLt)
    (hv : ∀ n ∈ m, n.lo ≤ n.hi) (n : Node V) (h : find s m = some n) :
    ∀ x ∈ m, x.lo ≤ s → s ≤ x.hi → x = n := by
  intro x hx h1 h2
  obtain ⟨hn, hn1, hn2⟩ := find_mem s m n h
  rcases pairwise_elim m hord x hx n hn with heq | hlt | hlt
  · exact heq
  · unfold NodeLt at hlt; omega
  · unfold NodeLt at hlt; omega

end IntervalMap

namespace IntervalMap

theorem eraseLoop_snd {V : Type} (P : MergePolicy V) (elo ehi : Nat) :
    ∀ rest : IMap V, (eraseLoop P elo ehi rest).2 =
      rest.dropWhile (fun n => n.lo ≤ ehi) := by
  intro rest
  induction rest with
  | nil => rfl
  | cons n rest' ih =>
    by_cases h1 : ehi < n.lo
    · rw [List.dropWhile_cons_of_neg (by simp; omega)]
      simp only [eraseLoop, if_pos h1]
    · have hn : n.lo ≤ ehi := by omega
      rw [List.dropWhile_cons_of_pos (by simpa using hn)]
      simp only [eraseLoop, if_neg h1]
      split_ifs <;> simpa using ih

theorem eraseIns_cons {V : Type} (P : MergePolicy V) (elo ehi : Nat) (n1 : Node V)
    (w' : IMap V) :
    eraseIns P elo ehi (n1 :: w') =
      (if n1.lo < elo then [⟨n1.lo, elo - 1, leftVal P elo ehi n1⟩] else []) ++
        (if ehi < (w'.getLastD n1).hi
         then [⟨ehi + 1, (w'.getLastD n1).hi, rightVal P ehi (w'.getLastD n1)⟩] else []) :=
  rfl

theorem eraseLoop_fst {V : Type} (P : MergePolicy V) (elo ehi : Nat) (hee : elo ≤ ehi) :
    ∀ rest : IMap V, rest.Pairwise NodeLt → (∀ n ∈ rest, elo ≤ n.hi) →
      (eraseLoop P elo ehi rest).1 =
        eraseIns P elo ehi (rest.takeWhile (fun n => n.lo ≤ ehi)) := by
  intro rest
  induction rest with
  | nil => intro _ _; rfl
  | cons n rest' ih =>
    intro hord hlb
    obtain ⟨hn, hord2⟩ := List.pairwise_cons.mp hord
    have hnlb : elo ≤ n.hi := hlb n (by simp)
    by_cases h1 : ehi < n.lo
    · rw [List.takeWhile_cons_of_neg (by simp; omega)]
      simp only [eraseLoop, if_pos h1]
      rfl
    · have hntake : n.lo ≤ ehi := by omega
      rw [List.takeWhile_cons_of_pos (by simpa using hntake)]
      have ihh := ih hord2 (fun y hy => hlb y (by simp [hy]))
      have hrest_lo : ∀ y ∈ rest', elo < y.lo := by
        intro y hy
        have h2 := hn y hy
        unfold NodeLt at h2
        omega
      simp only [eraseLoop, if_neg h1]
      by_cases h2 : elo ≤ n.lo ∧ n.hi ≤ ehi
      · rw [if_pos h2, ihh]
        cases htw : rest'.takeWhile (fun x => x.lo ≤ ehi) with
        | nil =>
          rw [eraseIns_cons]
          simp only [List.getLastD]
          rw [if_neg (by omega : ¬ n.lo < elo), if_neg (by omega : ¬ ehi < n.hi)]
          rfl
        | cons h t =>
          have hh : h ∈ rest' := (List.takeWhile_sublist _).subset (by rw [htw]; simp)
          have hhlo : elo < h.lo := hrest_lo h hh
          rw [eraseIns_cons, eraseIns_cons, List.getLastD_cons,
            if_neg (by omega : ¬ n.lo < elo), if_neg (by omega : ¬ h.lo < elo)]
      · rw [if_neg h2]
        by_cases h3 : n.lo < elo ∧ ehi < n.hi
        · rw [if_pos h3]
          have htw : rest'.takeWhile (fun x => x.lo ≤ ehi) = [] := by
            cases rest' with
            | nil => rfl
            | cons y t =>
              have hy := hn y (by simp)
              unfold NodeLt at hy
              rw [List.takeWhile_cons_of_neg (by simp; omega)]
          rw [ihh, htw, eraseIns_cons]
          simp only [List.getLastD]
          rw [if_pos h3.1, if_pos h3.2]
          have hLR : elo - 1 < n.hi := by omega
          simp only [eraseIns, mapInsert]
          rw [if_pos hLR]
          simp [leftVal, rightVal, h3.2]
        · rw [if_neg h3]
          by_cases h4 : n.lo < elo
          · rw [if_pos h4]
            have hnhi : n.hi ≤ ehi := by
              rcases Decidable.not_and_iff_or_not.mp h3 with h | h
              · exact absurd h4 h
              · omega
            rw [ihh]
            have hlv : leftVal P elo ehi n = P.truncate n.lo n.hi n.val elo := by
              unfold leftVal
              rw [if_neg (by omega : ¬ ehi < n.hi)]
            cases htw : rest'.takeWhile (fun x => x.lo ≤ ehi) with
            | nil =>
              rw [eraseIns_cons]
              simp only [List.getLastD]
              rw [if_pos h4, if_neg (by omega : ¬ ehi < n.hi), hlv]
              simp [eraseIns, mapInsert]
            | cons h t =>
              have hh : h ∈ rest' := (List.takeWhile_sublist _).subset (by rw [htw]; simp)
              have hhlo : elo < h.lo := hrest_lo h hh
              rw [eraseIns_cons, eraseIns_cons, List.getLastD_cons,
                if_pos h4, if_neg (by omega : ¬ h.lo < elo), hlv]
              by_cases hg : ehi < (t.getLastD h).hi
              · rw [if_pos hg]
                simp only [List.nil_append, mapInsert]
                rw [if_pos (by omega : elo - 1 < (t.getLastD h).hi)]
                rfl
              · rw [if_neg hg]
                simp [mapInsert]
          · rw [if_neg h4]
            have h5 : ehi < n.hi := by
              rcases Decidable.not_and_iff_or_not.mp h2 with h | h
              · omega
              · omega
            rw [if_pos h5]
            have htw : rest'.takeWhile (fun x => x.lo ≤ ehi) = [] := by
              cases rest' with
              | nil => rfl
              | cons y t =>
                have hy := hn y (by simp)
                unfold NodeLt at hy
                rw [List.takeWhile_cons_of_neg (by simp; omega)]
            rw [ihh, htw, eraseIns_cons]
            simp only [List.getLastD]
            rw [if_neg h4, if_pos h5]
            simp [eraseIns, mapInsert, rightVal]

end IntervalMap

namespace IntervalMap

theorem mapInsert_middle {V : Type} (n : Node V) :
    ∀ (l1 l2 : IMap V), (∀ x ∈ l1, x.hi < n.hi) → (∀ y ∈ l2, n.hi < y.hi) →
      mapInsert n (l1 ++ l2) = l1 ++ n :: l2 := by
  intro l1
  induction l1 with
  | nil =>
    intro l2 _ h2
    cases l2 with
    | nil => rfl
    | cons y ys =>
      rw [List.nil_append, mapInsert, if_pos (h2 y (by simp))]
      rfl
  | cons x xs ih =>
    intro l2 h1 h2
    have hx : x.hi < n.hi := h1 x (by simp)
    rw [List.cons_append, mapInsert, if_neg (by omega), if_pos hx,
      ih l2 (fun y hy => h1 y (by simp [hy])) h2]
    rfl

theorem erase_eq {V : Type} (P : MergePolicy V) (elo ehi : Nat) (m : IMap V)
    (hord : m.Pairwise NodeLt) (hv : ∀ n ∈ m, n.lo ≤ n.hi) (hee : elo ≤ ehi) :
    erase P (.mk elo ehi) m =
      m.takeWhile (fun n => n.hi < elo) ++
        (eraseIns P elo ehi
            ((m.dropWhile (fun n => n.hi < elo)).takeWhile (fun n => n.lo ≤ ehi)) ++
          (m.dropWhile (fun n => n.hi < elo)).dropWhile (fun n => n.lo ≤ ehi)) := by
  have hord_rest : (m.dropWhile (fun n => n.hi < elo)).Pairwise NodeLt :=
    hord.sublist (List.dropWhile_sublist _)
  have hv_rest : ∀ n ∈ m.dropWhile (fun n => n.hi < elo), n.lo ≤ n.hi :=
    fun n hn => hv n ((List.dropWhile_sublist _).subset hn)
  have hlb : ∀ n ∈ m.dropWhile (fun n => n.hi < elo), elo ≤ n.hi :=
    dropWhile_hi_bound elo m hord hv
  have hsplit : m.takeWhile (fun n => n.hi < elo) ++ m.dropWhile (fun n => n.hi < elo) = m :=
    List.takeWhile_append_dropWhile _ _
  have hsplit2 : (m.dropWhile (fun n => n.hi < elo)).takeWhile (fun n => n.lo ≤ ehi) ++
      (m.dropWhile (fun n => n.hi < elo)).dropWhile (fun n => n.lo ≤ ehi) =
      m.dropWhile (fun n => n.hi < elo) :=
    List.takeWhile_append_dropWhile _ _
  have hpre : ∀ x ∈ m.takeWhile (fun n => n.hi < elo), x.hi < elo := by
    intro x hx
    simpa using List.mem_takeWhile_imp hx
  have hsuf : ∀ y ∈ (m.dropWhile (fun n => n.hi < elo)).dropWhile (fun n => n.lo ≤ ehi),
      ehi < y.lo :=
    dropWhile_lo_bound ehi _ hord_rest hv_rest
  have hsufv : ∀ y ∈ (m.dropWhile (fun n => n.hi < elo)).dropWhile (fun n => n.lo ≤ ehi),
      y.lo ≤ y.hi :=
    fun y hy => hv_rest y ((List.dropWhile_sublist _).subset hy)
  have hcross1 : ∀ x ∈ m.takeWhile (fun n => n.hi < elo),
      ∀ y ∈ m.dropWhile (fun n => n.hi < elo), NodeLt x y := by
    intro x hx y hy
    have h2 := hord
    rw [← hsplit] at h2
    exact ((List.pairwise_append.mp h2).2.2) x hx y hy
  have hcross2 : ∀ x ∈ (m.dropWhile (fun n => n.hi < elo)).takeWhile (fun n => n.lo ≤ ehi),
      ∀ y ∈ (m.dropWhile (fun n => n.hi < elo)).dropWhile (fun n => n.lo ≤ ehi),
      NodeLt x y := by
    intro x hx y hy
    have h2 := hord_rest
    rw [← hsplit2] at h2
    exact ((List.pairwise_append.mp h2).2.2) x hx y hy
  show insertAll (eraseLoop P elo ehi (m.dropWhile (fun n => n.hi < elo))).1
      (m.takeWhile (fun n => n.hi < elo) ++
        (eraseLoop P elo ehi (m.dropWhile (fun n => n.hi < elo))).2) = _
  rw [eraseLoop_fst P elo ehi hee _ hord_rest hlb, eraseLoop_snd]
  cases htw : (m.dropWhile (fun n => n.hi < elo)).takeWhile (fun n => n.lo ≤ ehi) with
  | nil => simp [eraseIns, insertAll]
  | cons n1 w' =>
    have hn1 : n1 ∈ m.dropWhile (fun n => n.hi < elo) :=
      (List.takeWhile_sublist _).subset (by rw [htw]; simp)
    have hnk_mem : w'.getLastD n1 ∈ n1 :: w' := getLastD_mem_cons w' n1
    have hnk_rest : w'.getLastD n1 ∈ m.dropWhile (fun n => n.hi < elo) :=
      (List.takeWhile_sublist _).subset (by rw [htw]; exact hnk_mem)
    have hnk_walk : w'.getLastD n1 ∈
        (m.dropWhile (fun n => n.hi < elo)).takeWhile (fun n => n.lo ≤ ehi) := by
      rw [htw]; exact hnk_mem
    have hn1_walk : n1 ∈
        (m.dropWhile (fun n => n.hi < elo)).takeWhile (fun n => n.lo ≤ ehi) := by
      rw [htw]; simp
    have hnk_hi : elo ≤ (w'.getLastD n1).hi := hlb _ hnk_rest
    rw [eraseIns_cons]
    by_cases hL : n1.lo < elo
    · rw [if_pos hL]
      by_cases hR : ehi < (w'.getLastD n1).hi
      · rw [if_pos hR]
        show insertAll [_, _] _ = _
        unfold insertAll
        simp only [List.foldl_cons, List.foldl_nil]
        rw [mapInsert_middle _ _ _
          (by
            intro x hx
            have := hcross1 x hx n1 hn1
            unfold NodeLt at this
            simp only []
            omega)
          (by
            intro y hy
            have h1 := hsuf y hy
            have h2 := hsufv y hy
            simp only []
            omega)]
        rw [show m.takeWhile (fun n => n.hi < elo) ++
            (⟨n1.lo, elo - 1, leftVal P elo ehi n1⟩ : Node V) ::
              (m.dropWhile (fun n => n.hi < elo)).dropWhile (fun n => n.lo ≤ ehi) =
            (m.takeWhile (fun n => n.hi < elo) ++ [⟨n1.lo, elo - 1, leftVal P elo ehi n1⟩]) ++
              (m.dropWhile (fun n => n.hi < elo)).dropWhile (fun n => n.lo ≤ ehi) from by simp]
        rw [mapInsert_middle _ _ _
          (by
            intro x hx
            rcases List.mem_append.mp hx with h1 | h1
            · have := hpre x h1
              simp only []
              omega
            · have hx2 : x = ⟨n1.lo, elo - 1, leftVal P elo ehi n1⟩ := by simpa using h1
              subst hx2
              simp only []
              omega)
          (by
            intro y hy
            have h1 := hcross2 _ hnk_walk y hy
            have h2 := hsufv y hy
            unfold NodeLt at h1
            simp only []
            omega)]
        simp
      · rw [if_neg hR]
        show insertAll [_] _ = _
        unfold insertAll
        simp only [List.foldl_cons, List.foldl_nil]
        rw [mapInsert_middle _ _ _
          (by
            intro x hx
            have := hcross1 x hx n1 hn1
            unfold NodeLt at this
            simp only []
            omega)
          (by
            intro y hy
            have h1 := hsuf y hy
            have h2 := hsufv y hy
            simp only []
            omega)]
        simp
    · rw [if_neg hL]
      by_cases hR : ehi < (w'.getLastD n1).hi
      · rw [if_pos hR]
        show insertAll [_] _ = _
        unfold insertAll
        simp only [List.foldl_cons, List.foldl_nil]
        rw [mapInsert_middle _ _ _
          (by
            intro x hx
            have := hcross1 x hx _ hnk_rest
            unfold NodeLt at this
            have h2 := hv_rest _ hnk_rest
            simp only []
            omega)
          (by
            intro y hy
            have h1 := hcross2 _ hnk_walk y hy
            have h2 := hsufv y hy
            unfold NodeLt at h1
            simp only []
            omega)]
        simp
      · rw [if_neg hR]
        simp [insertAll]

end IntervalMap

namespace IntervalMap

theorem eraseIns_shape {V : Type} (P : MergePolicy V) (elo ehi : Nat)
    (walked : IMap V) : ∀ x ∈ eraseIns P elo ehi walked,
      (∃ n1 ∈ walked, x.lo = n1.lo ∧ x.hi = elo - 1 ∧
        x.val = leftVal P elo ehi n1 ∧ n1.lo < elo) ∨
      (∃ nk ∈ walked, x.lo = ehi + 1 ∧ x.hi = nk.hi ∧
        x.val = rightVal P ehi nk ∧ ehi < nk.hi) := by
  intro x hx
  cases walked with
  | nil => simp [eraseIns] at hx
  | cons n1 w' =>
    rw [eraseIns_cons] at hx
    rcases List.mem_append.mp hx with h | h
    · by_cases h1 : n1.lo < elo
      · rw [if_pos h1] at h
        have hx2 : x = ⟨n1.lo, elo - 1, leftVal P elo ehi n1⟩ := by simpa using h
        subst hx2
        exact Or.inl ⟨n1, by simp, rfl, rfl, rfl, h1⟩
      · rw [if_neg h1] at h
        simp at h
    · by_cases h2 : ehi < (w'.getLastD n1).hi
      · rw [if_pos h2] at h
        have hx2 : x = ⟨ehi + 1, (w'.getLastD n1).hi, rightVal P ehi (w'.getLastD n1)⟩ := by
          simpa using h
        subst hx2
        exact Or.inr ⟨w'.getLastD n1, getLastD_mem_cons w' n1, rfl, rfl, rfl, h2⟩
      · rw [if_neg h2] at h
        simp at h

theorem eraseIns_pairwise {V : Type} (P : MergePolicy V) (elo ehi : Nat)
    (hee : elo ≤ ehi) (walked : IMap V) :
    (eraseIns P elo ehi walked).Pairwise NodeLt := by
  cases walked with
  | nil => simp [eraseIns]
  | cons n1 w' =>
    rw [eraseIns_cons]
    split_ifs with h1 h2 h2
    · refine List.pairwise_append.mpr ⟨by simp, by simp, ?_⟩
      intro a ha b hb
      have ha2 : a = ⟨n1.lo, elo - 1, leftVal P elo ehi n1⟩ := by simpa using ha
      have hb2 : b = ⟨ehi + 1, (w'.getLastD n1).hi, rightVal P ehi (w'.getLastD n1)⟩ := by
        simpa using hb
      subst ha2; subst hb2
      show elo - 1 < ehi + 1
      omega
    · simp
    · simp
    · simp

theorem eraseIns_drel {V : Type} (P : MergePolicy V) (elo ehi : Nat)
    (hee : elo ≤ ehi) (walked : IMap V) :
    (eraseIns P elo ehi walked).Pairwise DRel := by
  cases walked with
  | nil => simp [eraseIns]
  | cons n1 w' =>
    rw [eraseIns_cons]
    split_ifs with h1 h2 h2
    · refine List.pairwise_append.mpr ⟨by simp, by simp, ?_⟩
      intro a ha b hb
      have ha2 : a = ⟨n1.lo, elo - 1, leftVal P elo ehi n1⟩ := by simpa using ha
      have hb2 : b = ⟨ehi + 1, (w'.getLastD n1).hi, rightVal P ehi (w'.getLastD n1)⟩ := by
        simpa using hb
      subst ha2; subst hb2
      refine ⟨by show elo - 1 < ehi + 1; omega, ?_⟩
      intro hadj
      exact absurd hadj (by show ¬(elo - 1 + 1 = ehi + 1); omega)
    · simp
    · simp
    · simp

theorem mapInsert_split {V : Type} (n : Node V) (l : IMap V) (hord : l.Pairwise NodeLt)
    (hv : ∀ x ∈ l, x.lo ≤ x.hi) (hne : ∀ x ∈ l, x.hi ≠ n.hi) :
    mapInsert n l = l.takeWhile (fun x => x.hi < n.hi) ++
      n :: l.dropWhile (fun x => x.hi < n.hi) := by
  have h := mapInsert_middle n (l.takeWhile (fun x => x.hi < n.hi))
    (l.dropWhile (fun x => x.hi < n.hi))
    (by
      intro x hx
      simpa using List.mem_takeWhile_imp hx)
    (by
      intro y hy
      have h1 := dropWhile_hi_bound n.hi l hord hv y hy
      have h2 := hne y ((List.dropWhile_sublist _).subset hy)
      omega)
  rwa [List.takeWhile_append_dropWhile] at h

theorem erase_facts {V : Type} (P : MergePolicy V) (M elo ehi : Nat) (m : IMap V)
    (hord : m.Pairwise NodeLt) (hwf : ∀ n ∈ m, NodeWF M n)
    (hee : elo ≤ ehi) (hem : ehi < M) :
    (erase P (.mk elo ehi) m).Pairwise NodeLt ∧
      (∀ n ∈ erase P (.mk elo ehi) m, NodeWF M n) ∧
      (∀ x ∈ erase P (.mk elo ehi) m, x.hi < elo ∨ ehi < x.lo) := by
  have hv : ∀ n ∈ m, n.lo ≤ n.hi := fun n hn => (hwf n hn).1
  rw [erase_eq P elo ehi m hord hv hee]
  have hord_rest : (m.dropWhile (fun n => n.hi < elo)).Pairwise NodeLt :=
    hord.sublist (List.dropWhile_sublist _)
  have hv_rest : ∀ n ∈ m.dropWhile (fun n => n.hi < elo), n.lo ≤ n.hi :=
    fun n hn => hv n ((List.dropWhile_sublist _).subset hn)
  have hrest_sub : ∀ x ∈ m.dropWhile (fun n => n.hi < elo), x ∈ m :=
    fun x hx => (List.dropWhile_sublist _).subset hx
  have hwalk_sub : ∀ x ∈ (m.dropWhile (fun n => n.hi < elo)).takeWhile (fun n => n.lo ≤ ehi),
      x ∈ m.dropWhile (fun n => n.hi < elo) :=
    fun x hx => (List.takeWhile_sublist _).subset hx
  have hpre_sub : ∀ x ∈ m.takeWhile (fun n => n.hi < elo), x ∈ m :=
    fun x hx => (List.takeWhile_sublist _).subset hx
  have hpre : ∀ x ∈ m.takeWhile (fun n => n.hi < elo), x.hi < elo := by
    intro x hx
    simpa using List.mem_takeWhile_imp hx
  have hsuf : ∀ y ∈ (m.dropWhile (fun n => n.hi < elo)).dropWhile (fun n => n.lo ≤ ehi),
      ehi < y.lo :=
    dropWhile_lo_bound ehi _ hord_rest hv_rest
  have hcross1 : ∀ x ∈ m.takeWhile (fun n => n.hi < elo),
      ∀ y ∈ m.dropWhile (fun n => n.hi < elo), NodeLt x y := by
    intro x hx y hy
    have h2 := hord
    rw [← List.takeWhile_append_dropWhile (fun n => n.hi < elo) m] at h2
    exact ((List.pairwise_append.mp h2).2.2) x hx y hy
  have hcross2 : ∀ x ∈ (m.dropWhile (fun n => n.hi < elo)).takeWhile (fun n => n.lo ≤ ehi),
      ∀ y ∈ (m.dropWhile (fun n => n.hi < elo)).dropWhile (fun n => n.lo ≤ ehi),
      NodeLt x y := by
    intro x hx y hy
    have h2 := hord_rest
    rw [← List.takeWhile_append_dropWhile (fun n => n.lo ≤ ehi)
      (m.dropWhile (fun n => n.hi < elo))] at h2
    exact ((List.pairwise_append.mp h2).2.2) x hx y hy
  have hins := eraseIns_shape P elo ehi
    ((m.dropWhile (fun n => n.hi < elo)).takeWhile (fun n => n.lo ≤ ehi))
  refine ⟨?_, ?_, ?_⟩
  · refine List.pairwise_append.mpr ⟨hord.sublist (List.takeWhile_sublist _),
      List.pairwise_append.mpr ⟨eraseIns_pairwise P elo ehi hee _,
        hord_rest.sublist (List.dropWhile_sublist _), ?_⟩, ?_⟩
    · intro a ha b hb
      rcases hins a ha with ⟨n1, hn1, hlo, hhi, _, hlt⟩ | ⟨nk, hnk, hlo, hhi, _, hlt⟩
      · have h1 := hsuf b hb
        show a.hi < b.lo
        omega
      · have h1 := hcross2 nk hnk b hb
        unfold NodeLt at h1
        show a.hi < b.lo
        omega
    · intro a ha b hb
      rcases List.mem_append.mp hb with hbi | hbs
      · rcases hins b hbi with ⟨n1, hn1, hlo, hhi, _, hlt⟩ | ⟨nk, hnk, hlo, hhi, _, hlt⟩
        · have h1 := hcross1 a ha n1 (hwalk_sub n1 hn1)
          unfold NodeLt at h1
          show a.hi < b.lo
          omega
        · have h1 := hpre a ha
          show a.hi < b.lo
          omega
      · exact hcross1 a ha b ((List.dropWhile_sublist _).subset hbs)
  · intro n hn
    rcases List.mem_append.mp hn with h | h
    · exact hwf n (hpre_sub n h)
    · rcases List.mem_append.mp h with h | h
      · rcases hins n h with ⟨n1, hn1, hlo, hhi, _, hlt⟩ | ⟨nk, hnk, hlo, hhi, _, hlt⟩
        · exact ⟨by omega, by omega⟩
        · have hwfk := hwf nk (hrest_sub nk (hwalk_sub nk hnk))
          obtain ⟨hwk1, hwk2⟩ := hwfk
          exact ⟨by omega, by omega⟩
      · exact hwf n (hrest_sub n ((List.dropWhile_sublist _).subset h))
  · intro x hx
    rcases List.mem_append.mp hx with h | h
    · exact Or.inl (hpre x h)
    · rcases List.mem_append.mp h with h | h
      · rcases hins x h with ⟨n1, hn1, hlo, hhi, _, hlt⟩ | ⟨nk, hnk, hlo, hhi, _, hlt⟩
        · exact Or.inl (by omega)
        · exact Or.inr (by omega)
      · exact Or.inr (hsuf x h)

end IntervalMap

namespace IntervalMap

theorem leftVal_id {V : Type} (P : MergePolicy V)
    (htr : ∀ lo hi v x, P.truncate lo hi v x = v)
    (hsp : ∀ lo hi v x, P.split lo hi v x = (v, v)) (elo ehi : Nat) (n : Node V) :
    leftVal P elo ehi n = n.val := by
  unfold leftVal
  split_ifs
  · simp [hsp, htr]
  · simp [htr]

theorem rightVal_id {V : Type} (P : MergePolicy V)
    (htr : ∀ lo hi v x, P.truncate lo hi v x = v)
    (hsp : ∀ lo hi v x, P.split lo hi v x = (v, v)) (ehi : Nat) (n : Node V) :
    rightVal P ehi n = n.val := by
  unfold rightVal
  simp [hsp]

theorem erase_drel {V : Type} (P : MergePolicy V) (M elo ehi : Nat) (m : IMap V)
    (htr : ∀ lo hi v x, P.truncate lo hi v x = v)
    (hsp : ∀ lo hi v x, P.split lo hi v x = (v, v))
    (hordD : m.Pairwise DRel) (hwf : ∀ n ∈ m, NodeWF M n)
    (hee : elo ≤ ehi) (hem : ehi < M) :
    (erase P (.mk elo ehi) m).Pairwise DRel := by
  have hord : m.Pairwise NodeLt := hordD.imp (fun h => h.1)
  have hv : ∀ n ∈ m, n.lo ≤ n.hi := fun n hn => (hwf n hn).1
  rw [erase_eq P elo ehi m hord hv hee]
  have hord_rest : (m.dropWhile (fun n => n.hi < elo)).Pairwise NodeLt :=
    hord.sublist (List.dropWhile_sublist _)
  have hordD_rest : (m.dropWhile (fun n => n.hi < elo)).Pairwise DRel :=
    hordD.sublist (List.dropWhile_sublist _)
  have hv_rest : ∀ n ∈ m.dropWhile (fun n => n.hi < elo), n.lo ≤ n.hi :=
    fun n hn => hv n ((List.dropWhile_sublist _).subset hn)
  have hwalk_sub : ∀ x ∈ (m.dropWhile (fun n => n.hi < elo)).takeWhile (fun n => n.lo ≤ ehi),
      x ∈ m.dropWhile (fun n => n.hi < elo) :=
    fun x hx => (List.takeWhile_sublist _).subset hx
  have hpre : ∀ x ∈ m.takeWhile (fun n => n.hi < elo), x.hi < elo := by
    intro x hx
    simpa using List.mem_takeWhile_imp hx
  have hsuf : ∀ y ∈ (m.dropWhile (fun n => n.hi < elo)).dropWhile (fun n => n.lo ≤ ehi),
      ehi < y.lo :=
    dropWhile_lo_bound ehi _ hord_rest hv_rest
  have hcross1D : ∀ x ∈ m.takeWhile (fun n => n.hi < elo),
      ∀ y ∈ m.dropWhile (fun n => n.hi < elo), DRel x y := by
    intro x hx y hy
    have h2 := hordD
    rw [← List.takeWhile_append_dropWhile (fun n => n.hi < elo) m] at h2
    exact ((List.pairwise_append.mp h2).2.2) x hx y hy
  have hcross2D : ∀ x ∈ (m.dropWhile (fun n => n.hi < elo)).takeWhile (fun n => n.lo ≤ ehi),
      ∀ y ∈ (m.dropWhile (fun n => n.hi < elo)).dropWhile (fun n => n.lo ≤ ehi),
      DRel x y := by
    intro x hx y hy
    have h2 := hordD_rest
    rw [← List.takeWhile_append_dropWhile (fun n => n.lo ≤ ehi)
      (m.dropWhile (fun n => n.hi < elo))] at h2
    exact ((List.pairwise_append.mp h2).2.2) x hx y hy
  have hins := eraseIns_shape P elo ehi
    ((m.dropWhile (fun n => n.hi < elo)).takeWhile (fun n => n.lo ≤ ehi))
  refine List.pairwise_append.mpr ⟨hordD.sublist (List.takeWhile_sublist _),
    List.pairwise_append.mpr ⟨eraseIns_drel P elo ehi hee _,
      hordD_rest.sublist (List.dropWhile_sublist _), ?_⟩, ?_⟩
  · intro a ha b hb
    rcases hins a ha with ⟨n1, hn1, hlo, hhi, hval, hlt⟩ | ⟨nk, hnk, hlo, hhi, hval, hlt⟩
    · have h1 := hsuf b hb
      refine ⟨by omega, ?_⟩
      intro hadj
      exact absurd hadj (by omega)
    · rw [rightVal_id P htr hsp] at hval
      obtain ⟨h1o, h1a⟩ := hcross2D nk hnk b hb
      refine ⟨by omega, ?_⟩
      intro hadj
      rw [hval]
      exact h1a (by omega)
  · intro a ha b hb
    rcases List.mem_append.mp hb with hbi | hbs
    · rcases hins b hbi with ⟨n1, hn1, hlo, hhi, hval, hlt⟩ | ⟨nk, hnk, hlo, hhi, hval, hlt⟩
      · rw [leftVal_id P htr hsp] at hval
        obtain ⟨h1o, h1a⟩ := hcross1D a ha n1 (hwalk_sub n1 hn1)
        refine ⟨by omega, ?_⟩
        intro hadj
        rw [hval]
        exact h1a (by omega)
      · have h1 := hpre a ha
        refine ⟨by omega, ?_⟩
        intro hadj
        exact absurd hadj (by omega)
    · exact hcross1D a ha b ((List.dropWhile_sublist _).subset hbs)

end IntervalMap

namespace IntervalMap

theorem leftMergeStep_spec {V : Type} (M : Nat) (P : MergePolicy V) (klo khi : Nat)
    (v : V) (m : IMap V) (hord : m.Pairwise NodeLt) (hwf : ∀ n ∈ m, NodeWF M n)
    (hdist : ∀ x ∈ m, x.hi < klo ∨ khi < x.lo) (hk : klo ≤ khi) (hkM : khi < M) :
    (leftMergeStep M P klo khi v m = ⟨klo, khi, v, m⟩ ∧
      ∀ x ∈ m, x.hi + 1 = klo → P.merge x.lo x.hi x.val klo khi v = none) ∨
    (∃ u L w v', m = u ++ L :: w ∧ L.hi + 1 = klo ∧
      P.merge L.lo L.hi L.val klo khi v = some v' ∧
      leftMergeStep M P klo khi v m = ⟨L.lo, khi, v', u ++ w⟩) := by
  have hv : ∀ n ∈ m, n.lo ≤ n.hi := fun n hn => (hwf n hn).1
  unfold leftMergeStep
  by_cases hc : (klo + M - 1) % M < klo
  · rw [if_pos hc]
    have hklo : 0 < klo := by
      by_contra h
      have h0 : klo = 0 := by omega
      subst h0
      rw [Nat.mod_eq_of_lt (by omega)] at hc
      omega
    have hmod : (klo + M - 1) % M = klo - 1 := by
      have h1 : klo + M - 1 = (klo - 1) + M := by omega
      rw [h1, Nat.add_mod_right, Nat.mod_eq_of_lt (by omega)]
    rw [hmod]
    cases hf : find (klo - 1) m with
    | none =>
      simp only [hf]
      left
      refine ⟨by trivial, ?_⟩
      intro x hx hadj
      have hxv := hv x hx
      exact absurd ⟨by omega, by omega⟩ (find_none _ m hord hv hf x hx)
    | some L =>
      simp only [hf]
      obtain ⟨hLmem, hL1, hL2⟩ := find_mem (klo - 1) m L hf
      have hLd := hdist L hLmem
      have hLv := hv L hLmem
      have hLhi : L.hi = klo - 1 := by
        rcases hLd with h | h
        · omega
        · omega
      rw [if_pos (by rw [hLhi, (by omega : klo - 1 + 1 = klo), Nat.mod_eq_of_lt (by omega)] :
        (L.hi + 1) % M = klo)]
      cases hm : P.merge L.lo L.hi L.val klo khi v with
      | none =>
        simp only [hm]
        left
        refine ⟨by trivial, ?_⟩
        intro x hx hadj
        have hxv := hv x hx
        have hx1 : x = L := find_unique (klo - 1) m hord hv L hf x hx (by omega) (by omega)
        subst hx1
        exact hm
      | some v' =>
        simp only [hm]
        right
        obtain ⟨u, w, hm2⟩ := List.append_of_mem hLmem
        have hrem : removeHi L.hi m = u ++ w := by
          rw [hm2]
          refine removeHi_append L.hi u L w rfl ?_
          intro x hx
          have hx2 : NodeLt x L := by
            have h2 := hord
            rw [hm2] at h2
            exact (List.pairwise_append.mp h2).2.2 x hx L (by simp)
          unfold NodeLt at hx2
          omega
        refine ⟨u, L, w, v', hm2, by omega, hm, ?_⟩
        show (⟨min L.lo khi, max L.lo khi, v', removeHi L.hi m⟩ : InsState V) = _
        rw [hrem, min_eq_left (by omega), max_eq_right (by omega)]
  · rw [if_neg hc]
    left
    refine ⟨by trivial, ?_⟩
    intro x hx hadj
    have hklo : klo = 0 := by
      by_contra h
      apply hc
      have h1 : klo + M - 1 = (klo - 1) + M := by omega
      rw [h1, Nat.add_mod_right, Nat.mod_eq_of_lt (by omega)]
      omega
    exact absurd hadj (by omega)

theorem rightMergeStep_spec {V : Type} (M : Nat) (P : MergePolicy V) (klo khi : Nat)
    (v : V) (m : IMap V) (hord : m.Pairwise NodeLt) (hwf : ∀ n ∈ m, NodeWF M n)
    (hdist : ∀ x ∈ m, x.hi < klo ∨ khi < x.lo) (hk : klo ≤ khi) (hkM : khi < M) :
    (rightMergeStep M P klo khi v m = ⟨klo, khi, v, m⟩ ∧
      ∀ x ∈ m, khi + 1 = x.lo → P.merge klo khi v x.lo x.hi x.val = none) ∨
    (∃ u R w v', m = u ++ R :: w ∧ khi + 1 = R.lo ∧
      P.merge klo khi v R.lo R.hi R.val = some v' ∧
      rightMergeStep M P klo khi v m = ⟨klo, R.hi, v', u ++ w⟩) := by
  have hv : ∀ n ∈ m, n.lo ≤ n.hi := fun n hn => (hwf n hn).1
  unfold rightMergeStep
  by_cases hc : khi < (khi + 1) % M
  · rw [if_pos hc]
    have hkm : khi + 1 < M := by
      by_contra h
      have h1 : khi + 1 = M := by omega
      rw [h1, Nat.mod_self] at hc
      omega
    have hmod : (khi + 1) % M = khi + 1 := Nat.mod_eq_of_lt hkm
    rw [hmod]
    cases hf : find (khi + 1) m with
    | none =>
      simp only [hf]
      left
      refine ⟨by trivial, ?_⟩
      intro x hx hadj
      have hxv := hv x hx
      exact absurd ⟨by omega, by omega⟩ (find_none _ m hord hv hf x hx)
    | some R =>
      simp only [hf]
      obtain ⟨hRmem, hR1, hR2⟩ := find_mem (khi + 1) m R hf
      have hRd := hdist R hRmem
      have hRv := hv R hRmem
      have hRlo : R.lo = khi + 1 := by
        rcases hRd with h | h
        · omega
        · omega
      rw [if_pos (by omega : khi + 1 = R.lo)]
      cases hm : P.merge klo khi v R.lo R.hi R.val with
      | none =>
        simp only [hm]
        left
        refine ⟨by trivial, ?_⟩
        intro x hx hadj
        have hxv := hv x hx
        have hx1 : x = R := find_unique (khi + 1) m hord hv R hf x hx (by omega) (by omega)
        subst hx1
        exact hm
      | some v' =>
        simp only [hm]
        right
        obtain ⟨u, w, hm2⟩ := List.append_of_mem hRmem
        have hrem : removeHi R.hi m = u ++ w := by
          rw [hm2]
          refine removeHi_append R.hi u R w rfl ?_
          intro x hx
          have hx2 : NodeLt x R := by
            have h2 := hord
            rw [hm2] at h2
            exact (List.pairwise_append.mp h2).2.2 x hx R (by simp)
          unfold NodeLt at hx2
          omega
        refine ⟨u, R, w, v', hm2, by omega, hm, ?_⟩
        show (⟨min klo R.hi, max klo R.hi, v', removeHi R.hi m⟩ : InsState V) = _
        rw [hrem, min_eq_left (by omega), max_eq_right (by omega)]
  · rw [if_neg hc]
    left
    refine ⟨by trivial, ?_⟩
    intro x hx hadj
    exfalso
    apply hc
    have hx2 := hwf x hx
    obtain ⟨hx3, hx4⟩ := hx2
    rw [Nat.mod_eq_of_lt (by omega : khi + 1 < M)]
    omega

end IntervalMap

namespace IntervalMap

theorem insertCore_eq {V : Type} (M : Nat) (P : MergePolicy V) (klo khi : Nat) (v : V)
    (m : IMap V) (lo1 : Nat) (v1 : V) (m1 : IMap V)
    (h : leftMergeStep M P klo khi v m = ⟨lo1, khi, v1, m1⟩)
    (lo2 hi2 : Nat) (v2 : V) (m2 : IMap V)
    (h2 : rightMergeStep M P lo1 khi v1 m1 = ⟨lo2, hi2, v2, m2⟩) :
    insertCore M P klo khi v m = mapInsert ⟨lo2, hi2, v2⟩ m2 := by
  unfold insertCore
  rw [h]
  show mapInsert ⟨(rightMergeStep M P lo1 khi v1 m1).lo, (rightMergeStep M P lo1 khi v1 m1).hi,
    (rightMergeStep M P lo1 khi v1 m1).val⟩ (rightMergeStep M P lo1 khi v1 m1).map = _
  rw [h2]

theorem leftMergeStep_facts {V : Type} (M : Nat) (P : MergePolicy V) (klo khi : Nat)
    (v : V) (m : IMap V) (hord : m.Pairwise NodeLt) (hwf : ∀ n ∈ m, NodeWF M n)
    (hdist : ∀ x ∈ m, x.hi < klo ∨ khi < x.lo) (hk : klo ≤ khi) (hkM : khi < M) :
    ∃ lo1 v1 m1, leftMergeStep M P klo khi v m = ⟨lo1, khi, v1, m1⟩ ∧
      m1.Pairwise NodeLt ∧ (∀ n ∈ m1, NodeWF M n) ∧
      (∀ x ∈ m1, x.hi < lo1 ∨ khi < x.lo) ∧ lo1 ≤ klo ∧ lo1 ≤ khi ∧
      (∀ x ∈ m1, x ∈ m) := by
  have hv : ∀ n ∈ m, n.lo ≤ n.hi := fun n hn => (hwf n hn).1
  rcases leftMergeStep_spec M P klo khi v m hord hwf hdist hk hkM with
    ⟨heq, _⟩ | ⟨u, L, w, v', hm2, hLadj, _, heq⟩
  · exact ⟨klo, v, m, heq, hord, hwf, hdist, le_refl _, hk, fun x hx => hx⟩
  · have hsub : ∀ x ∈ u ++ w, x ∈ m := by
      intro x hx
      rw [hm2]
      rcases List.mem_append.mp hx with h | h
      · exact List.mem_append.mpr (Or.inl h)
      · exact List.mem_append.mpr (Or.inr (by simp [h]))
    have hLmem : L ∈ m := by rw [hm2]; simp
    have hLwf := hwf L hLmem
    obtain ⟨hLwf1, hLwf2⟩ := hLwf
    have hordm := hord
    rw [hm2] at hordm
    obtain ⟨hpu, hpLw, hcuw⟩ := List.pairwise_append.mp hordm
    refine ⟨L.lo, v', u ++ w, heq, ?_, fun n hn => hwf n (hsub n hn), ?_, by omega, by omega,
      hsub⟩
    · refine List.pairwise_append.mpr ⟨hpu, (List.pairwise_cons.mp hpLw).2, ?_⟩
      intro a ha b hb
      exact hcuw a ha b (by simp [hb])
    · intro x hx
      rcases List.mem_append.mp hx with h | h
      · have h3 := hcuw x h L (by simp)
        unfold NodeLt at h3
        exact Or.inl h3
      · have h5 := (List.pairwise_cons.mp hpLw).1 x h
        unfold NodeLt at h5
        have h6 := hdist x (hsub x (List.mem_append.mpr (Or.inr h)))
        have h7 := hv x (hsub x (List.mem_append.mpr (Or.inr h)))
        exact Or.inr (by rcases h6 with h6 | h6 <;> omega)

theorem rightMergeStep_facts {V : Type} (M : Nat) (P : MergePolicy V) (lo1 khi : Nat)
    (v1 : V) (m1 : IMap V) (hord : m1.Pairwise NodeLt) (hwf : ∀ n ∈ m1, NodeWF M n)
    (hdist : ∀ x ∈ m1, x.hi < lo1 ∨ khi < x.lo) (hk : lo1 ≤ khi) (hkM : khi < M) :
    ∃ hi2 v2 m2, rightMergeStep M P lo1 khi v1 m1 = ⟨lo1, hi2, v2, m2⟩ ∧
      m2.Pairwise NodeLt ∧ (∀ n ∈ m2, NodeWF M n) ∧
      (∀ x ∈ m2, x.hi < lo1 ∨ hi2 < x.lo) ∧ khi ≤ hi2 ∧ hi2 < M ∧ lo1 ≤ hi2 ∧
      (∀ x ∈ m2, x ∈ m1) := by
  have hv : ∀ n ∈ m1, n.lo ≤ n.hi := fun n hn => (hwf n hn).1
  rcases rightMergeStep_spec M P lo1 khi v1 m1 hord hwf hdist hk hkM with
    ⟨heq, _⟩ | ⟨u, R, w, v', hm2, hRadj, _, heq⟩
  · exact ⟨khi, v1, m1, heq, hord, hwf, hdist, le_refl _, hkM, hk, fun x hx => hx⟩
  · have hsub : ∀ x ∈ u ++ w, x ∈ m1 := by
      intro x hx
      rw [hm2]
      rcases List.mem_append.mp hx with h | h
      · exact List.mem_append.mpr (Or.inl h)
      · exact List.mem_append.mpr (Or.inr (by simp [h]))
    have hRmem : R ∈ m1 := by rw [hm2]; simp
    have hRwf := hwf R hRmem
    obtain ⟨hRwf1, hRwf2⟩ := hRwf
    have hordm := hord
    rw [hm2] at hordm
    obtain ⟨hpu, hpRw, hcuw⟩ := List.pairwise_append.mp hordm
    refine ⟨R.hi, v', u ++ w, heq, ?_, fun n hn => hwf n (hsub n hn), ?_, by omega, by omega,
      by omega, hsub⟩
    · refine List.pairwise_append.mpr ⟨hpu, (List.pairwise_cons.mp hpRw).2, ?_⟩
      intro a ha b hb
      exact hcuw a ha b (by simp [hb])
    · intro x hx
      rcases List.mem_append.mp hx with h | h
      · have h3 := hcuw x h R (by simp)
        unfold NodeLt at h3
        have h6 := hdist x (hsub x (List.mem_append.mpr (Or.inl h)))
        have h7 := hv x (hsub x (List.mem_append.mpr (Or.inl h)))
        exact Or.inl (by rcases h6 with h6 | h6 <;> omega)
      · have h5 := (List.pairwise_cons.mp hpRw).1 x h
        unfold NodeLt at h5
        exact Or.inr h5

theorem insertCore_facts {V : Type} (M : Nat) (P : MergePolicy V) (klo khi : Nat)
    (v : V) (m : IMap V) (hord : m.Pairwise NodeLt) (hwf : ∀ n ∈ m, NodeWF M n)
    (hdist : ∀ x ∈ m, x.hi < klo ∨ khi < x.lo) (hk : klo ≤ khi) (hkM : khi < M) :
    ∃ l1 n l2, insertCore M P klo khi v m = l1 ++ n :: l2 ∧
      (l1 ++ n :: l2).Pairwise NodeLt ∧ (∀ x ∈ l1 ++ n :: l2, NodeWF M x) ∧
      n.lo ≤ klo ∧ khi ≤ n.hi ∧ (∀ x ∈ l1, x.hi < n.lo) := by
  obtain ⟨lo1, v1, m1, heq1, hord1, hwf1, hdist1, hlo1, hlov1, _⟩ :=
    leftMergeStep_facts M P klo khi v m hord hwf hdist hk hkM
  obtain ⟨hi2, v2, m2, heq2, hord2, hwf2, hdist2, hhi2, hhi2M, hlo2hi, _⟩ :=
    rightMergeStep_facts M P lo1 khi v1 m1 hord1 hwf1 hdist1 hlov1 hkM
  have hv2 : ∀ x ∈ m2, x.lo ≤ x.hi := fun x hx => (hwf2 x hx).1
  have hne : ∀ x ∈ m2, x.hi ≠ (⟨lo1, hi2, v2⟩ : Node V).hi := by
    intro x hx
    show x.hi ≠ hi2
    rcases hdist2 x hx with h | h
    · omega
    · have := hv2 x hx
      omega
  have hmsplit := mapInsert_split (⟨lo1, hi2, v2⟩ : Node V) m2 hord2 hv2 hne
  have hsplit : insertCore M P klo khi v m =
      m2.takeWhile (fun x => x.hi < (⟨lo1, hi2, v2⟩ : Node V).hi) ++
        (⟨lo1, hi2, v2⟩ : Node V) ::
          m2.dropWhile (fun x => x.hi < (⟨lo1, hi2, v2⟩ : Node V).hi) := by
    rw [insertCore_eq M P klo khi v m lo1 v1 m1 heq1 lo1 hi2 v2 m2 heq2]
    exact hmsplit
  have hpair : (mapInsert (⟨lo1, hi2, v2⟩ : Node V) m2).Pairwise NodeLt := by
    refine mapInsert_pairwise _ m2 hord2 ?_ ?_
    · intro a ha b hb hab
      have := hv2 b hb
      unfold NodeLt at hab
      omega
    · intro x hx
      rcases hdist2 x hx with h | h
      · refine ⟨?_, ?_, ?_⟩
        · intro _
          show x.hi < lo1
          omega
        · intro h2
          exfalso
          have h3 : hi2 < x.hi := h2
          omega
        · show x.hi ≠ hi2
          omega
      · have hx2 := hv2 x hx
        refine ⟨?_, ?_, ?_⟩
        · intro h2
          exfalso
          have h3 : x.hi < hi2 := h2
          omega
        · intro _
          show hi2 < x.lo
          omega
        · show x.hi ≠ hi2
          omega
  rw [hmsplit] at hpair
  refine ⟨_, _, _, hsplit, hpair, ?_, hlo1, hhi2, ?_⟩
  · intro x hx
    rw [← hmsplit] at hx
    rcases mapInsert_mem _ m2 x hx with h | h
    · subst h
      exact ⟨by show lo1 ≤ hi2; omega, by show hi2 < M; omega⟩
    · exact hwf2 x h
  · intro x hx
    have hx1 : x ∈ m2 := (List.takeWhile_sublist _).subset hx
    have hx2 := List.mem_takeWhile_imp hx
    have hx3 : x.hi < hi2 := by simpa using hx2
    show x.hi < lo1
    rcases hdist2 x hx1 with h | h
    · omega
    · have := hv2 x hx1
      omega

end IntervalMap

namespace IntervalMap

theorem leftMergeStep_drel {V : Type} [DecidableEq V] (M : Nat) (P : MergePolicy V)
    (klo khi : Nat) (v : V) (m : IMap V)
    (hmg : ∀ l1 h1 v1 l2 h2 v2, P.merge l1 h1 v1 l2 h2 v2 =
      if v1 = v2 then some v1 else none)
    (hordD : m.Pairwise DRel) (hwf : ∀ n ∈ m, NodeWF M n)
    (hdist : ∀ x ∈ m, x.hi < klo ∨ khi < x.lo) (hk : klo ≤ khi) (hkM : khi < M) :
    ∃ lo1 m1, leftMergeStep M P klo khi v m = ⟨lo1, khi, v, m1⟩ ∧
      m1.Pairwise DRel ∧ (∀ n ∈ m1, NodeWF M n) ∧
      (∀ x ∈ m1, x.hi < lo1 ∨ khi < x.lo) ∧ lo1 ≤ klo ∧ lo1 ≤ khi ∧
      (∀ x ∈ m1, x.hi + 1 = lo1 → x.val ≠ v) ∧ (∀ x ∈ m1, x ∈ m) := by
  have hord : m.Pairwise NodeLt := hordD.imp (fun h => h.1)
  have hv : ∀ n ∈ m, n.lo ≤ n.hi := fun n hn => (hwf n hn).1
  rcases leftMergeStep_spec M P klo khi v m hord hwf hdist hk hkM with
    ⟨heq, hadj⟩ | ⟨u, L, w, v', hm2, hLadj, hmrg, heq⟩
  · refine ⟨klo, m, heq, hordD, hwf, hdist, le_refl _, hk, ?_, fun x hx => hx⟩
    intro x hx h2
    have h3 := hadj x hx h2
    rw [hmg] at h3
    intro h4
    rw [if_pos h4] at h3
    simp at h3
  · rw [hmg] at hmrg
    have hLv : L.val = v := by
      by_contra h4
      rw [if_neg h4] at hmrg
      simp at hmrg
    have hv1 : v' = v := by
      rw [if_pos hLv] at hmrg
      injection hmrg with h5
      rw [← h5]
      exact hLv
    subst hv1
    have hsub : ∀ x ∈ u ++ w, x ∈ m := by
      intro x hx
      rw [hm2]
      rcases List.mem_append.mp hx with h | h
      · exact List.mem_append.mpr (Or.inl h)
      · exact List.mem_append.mpr (Or.inr (by simp [h]))
    have hLmem : L ∈ m := by rw [hm2]; simp
    obtain ⟨hLwf1, hLwf2⟩ := hwf L hLmem
    have hordm := hord
    rw [hm2] at hordm
    obtain ⟨hpu, hpLw, hcuw⟩ := List.pairwise_append.mp hordm
    have hordmD := hordD
    rw [hm2] at hordmD
    obtain ⟨hpuD, hpLwD, hcuwD⟩ := List.pairwise_append.mp hordmD
    refine ⟨L.lo, u ++ w, heq, ?_, fun n hn => hwf n (hsub n hn), ?_, by omega, by omega,
      ?_, hsub⟩
    · refine List.pairwise_append.mpr ⟨hpuD, (List.pairwise_cons.mp hpLwD).2, ?_⟩
      intro a ha b hb
      exact hcuwD a ha b (by simp [hb])
    · intro x hx
      rcases List.mem_append.mp hx with h | h
      · have h3 := hcuw x h L (by simp)
        unfold NodeLt at h3
        exact Or.inl h3
      · have h5 := (List.pairwise_cons.mp hpLw).1 x h
        unfold NodeLt at h5
        have h6 := hdist x (hsub x (List.mem_append.mpr (Or.inr h)))
        have h7 := hv x (hsub x (List.mem_append.mpr (Or.inr h)))
        exact Or.inr (by rcases h6 with h6 | h6 <;> omega)
    · intro x hx h2
      rcases List.mem_append.mp hx with h | h
      · have h6 := hcuwD x h L (by simp)
        rw [← hLv]
        exact h6.2 h2
      · have h5 := (List.pairwise_cons.mp hpLw).1 x h
        unfold NodeLt at h5
        have h7 := hv x (hsub x (List.mem_append.mpr (Or.inr h)))
        exfalso
        omega

theorem rightMergeStep_drel {V : Type} [DecidableEq V] (M : Nat) (P : MergePolicy V)
    (lo1 khi : Nat) (v : V) (m1 : IMap V)
    (hmg : ∀ l1 h1 v1 l2 h2 v2, P.merge l1 h1 v1 l2 h2 v2 =
      if v1 = v2 then some v1 else none)
    (hordD : m1.Pairwise DRel) (hwf : ∀ n ∈ m1, NodeWF M n)
    (hdist : ∀ x ∈ m1, x.hi < lo1 ∨ khi < x.lo) (hk : lo1 ≤ khi) (hkM : khi < M) :
    ∃ hi2 m2, rightMergeStep M P lo1 khi v m1 = ⟨lo1, hi2, v, m2⟩ ∧
      m2.Pairwise DRel ∧ (∀ n ∈ m2, NodeWF M n) ∧
      (∀ x ∈ m2, x.hi < lo1 ∨ hi2 < x.lo) ∧ khi ≤ hi2 ∧ hi2 < M ∧ lo1 ≤ hi2 ∧
      (∀ x ∈ m2, hi2 + 1 = x.lo → v ≠ x.val) ∧ (∀ x ∈ m2, x ∈ m1) := by
  have hord : m1.Pairwise NodeLt := hordD.imp (fun h => h.1)
  have hv : ∀ n ∈ m1, n.lo ≤ n.hi := fun n hn => (hwf n hn).1
  rcases rightMergeStep_spec M P lo1 khi v m1 hord hwf hdist hk hkM with
    ⟨heq, hadj⟩ | ⟨u, R, w, v', hm2, hRadj, hmrg, heq⟩
  · refine ⟨khi, m1, heq, hordD, hwf, hdist, le_refl _, hkM, hk, ?_, fun x hx => hx⟩
    intro x hx h2
    have h3 := hadj x hx h2
    rw [hmg] at h3
    intro h4
    rw [if_pos h4] at h3
    simp at h3
  · rw [hmg] at hmrg
    have hRv : v = R.val := by
      by_contra h4
      rw [if_neg h4] at hmrg
      simp at hmrg
    have hv1 : v' = v := by
      rw [if_pos hRv] at hmrg
      injection hmrg with h5
      exact h5.symm
    subst hv1
    have hsub : ∀ x ∈ u ++ w, x ∈ m1 := by
      intro x hx
      rw [hm2]
      rcases List.mem_append.mp hx with h | h
      · exact List.mem_append.mpr (Or.inl h)
      · exact List.mem_append.mpr (Or.inr (by simp [h]))
    have hRmem : R ∈ m1 := by rw [hm2]; simp
    obtain ⟨hRwf1, hRwf2⟩ := hwf R hRmem
    have hordm := hord
    rw [hm2] at hordm
    obtain ⟨hpu, hpRw, hcuw⟩ := List.pairwise_append.mp hordm
    have hordmD := hordD
    rw [hm2] at hordmD
    obtain ⟨hpuD, hpRwD, hcuwD⟩ := List.pairwise_append.mp hordmD
    refine ⟨R.hi, u ++ w, heq, ?_, fun n hn => hwf n (hsub n hn), ?_, by omega, by omega,
      by omega, ?_, hsub⟩
    · refine List.pairwise_append.mpr ⟨hpuD, (List.pairwise_cons.mp hpRwD).2, ?_⟩
      intro a ha b hb
      exact hcuwD a ha b (by simp [hb])
    · intro x hx
      rcases List.mem_append.mp hx with h | h
      · have h3 := hcuw x h R (by simp)
        unfold NodeLt at h3
        have h6 := hdist x (hsub x (List.mem_append.mpr (Or.inl h)))
        have h7 := hv x (hsub x (List.mem_append.mpr (Or.inl h)))
        exact Or.inl (by rcases h6 with h6 | h6 <;> omega)
      · have h5 := (List.pairwise_cons.mp hpRw).1 x h
        unfold NodeLt at h5
        exact Or.inr h5
    · intro x hx h2
      rcases List.mem_append.mp hx with h | h
      · have h5 := hcuw x h R (by simp)
        unfold NodeLt at h5
        have h7 := hv x (hsub x (List.mem_append.mpr (Or.inl h)))
        exfalso
        omega
      · have h6 := (List.pairwise_cons.mp hpRwD).1 x h
        rw [hRv]
        exact h6.2 h2

theorem insertCore_drel {V : Type} [DecidableEq V] (M : Nat) (P : MergePolicy V)
    (klo khi : Nat) (v : V) (m : IMap V)
    (hmg : ∀ l1 h1 v1 l2 h2 v2, P.merge l1 h1 v1 l2 h2 v2 =
      if v1 = v2 then some v1 else none)
    (hordD : m.Pairwise DRel) (hwf : ∀ n ∈ m, NodeWF M n)
    (hdist : ∀ x ∈ m, x.hi < klo ∨ khi < x.lo) (hk : klo ≤ khi) (hkM : khi < M) :
    (insertCore M P klo khi v m).Pairwise DRel ∧
      ∀ x ∈ insertCore M P klo khi v m, NodeWF M x := by
  obtain ⟨lo1, m1, heq1, hord1D, hwf1, hdist1, hlo1, hlov1, hadjL, _⟩ :=
    leftMergeStep_drel M P klo khi v m hmg hordD hwf hdist hk hkM
  obtain ⟨hi2, m2, heq2, hord2D, hwf2, hdist2, hhi2, hhi2M, hlo2hi, hadjR, hsub2⟩ :=
    rightMergeStep_drel M P lo1 khi v m1 hmg hord1D hwf1 hdist1 hlov1 hkM
  have hadjL2 : ∀ x ∈ m2, x.hi + 1 = lo1 → x.val ≠ v := fun x hx => hadjL x (hsub2 x hx)
  have hv2 : ∀ x ∈ m2, x.lo ≤ x.hi := fun x hx => (hwf2 x hx).1
  rw [insertCore_eq M P klo khi v m lo1 v m1 heq1 lo1 hi2 v m2 heq2]
  constructor
  · refine mapInsert_pairwise _ m2 hord2D ?_ ?_
    · intro a ha b hb hab
      have h1 := hab.1
      have h2 := hv2 b hb
      omega
    · intro x hx
      rcases hdist2 x hx with h | h
      · refine ⟨?_, ?_, ?_⟩
        · intro _
          refine ⟨by show x.hi < lo1; omega, ?_⟩
          intro h2
          have h3 : x.hi + 1 = lo1 := h2
          show x.val ≠ v
          exact hadjL2 x hx h3
        · intro h2
          exfalso
          have h3 : hi2 < x.hi := h2
          omega
        · show x.hi ≠ hi2
          omega
      · have hx2 := hv2 x hx
        refine ⟨?_, ?_, ?_⟩
        · intro h2
          exfalso
          have h3 : x.hi < hi2 := h2
          omega
        · intro _
          refine ⟨by show hi2 < x.lo; omega, ?_⟩
          intro h2
          have h3 : hi2 + 1 = x.lo := h2
          show v ≠ x.val
          exact hadjR x hx h3
        · show x.hi ≠ hi2
          omega
  · intro x hx
    rcases mapInsert_mem _ m2 x hx with h | h
    · subst h
      exact ⟨by show lo1 ≤ hi2; omega, by show hi2 < M; omega⟩
    · exact hwf2 x h

end IntervalMap

namespace IntervalMap

theorem insert_true_eq {V : Type} (M : Nat) (P : MergePolicy V) (klo khi : Nat) (v : V)
    (m : IMap V) :
    insert M P (.mk klo khi) v true m =
      insertCore M P klo khi v (erase P (.mk klo khi) m) := by
  simp [insert]

theorem insert_false_nil {V : Type} (M : Nat) (P : MergePolicy V) (klo khi : Nat) (v : V)
    (m : IMap V) (h : lowerBound klo m = []) :
    insert M P (.mk klo khi) v false m = insertCore M P klo khi v m := by
  simp [insert, h]

theorem insert_false_cons {V : Type} (M : Nat) (P : MergePolicy V) (klo khi : Nat) (v : V)
    (m : IMap V) (f : Node V) (t : IMap V) (h : lowerBound klo m = f :: t) :
    insert M P (.mk klo khi) v false m =
      if ivOverlapping klo khi f.lo f.hi then m else insertCore M P klo khi v m := by
  simp [insert, h]

theorem insert_drel {V : Type} [DecidableEq V] (M : Nat) (P : MergePolicy V) (key : Iv)
    (v : V) (mh : Bool) (m : IMap V)
    (hmg : ∀ l1 h1 v1 l2 h2 v2, P.merge l1 h1 v1 l2 h2 v2 =
      if v1 = v2 then some v1 else none)
    (htr : ∀ lo hi v x, P.truncate lo hi v x = v)
    (hsp : ∀ lo hi v x, P.split lo hi v x = (v, v))
    (hm : InvD M m) (hkey : IvWF M key) :
    InvD M (insert M P key v mh m) := by
  obtain ⟨hordD, hwf⟩ := hm
  cases key with
  | empty => exact ⟨hordD, hwf⟩
  | mk klo khi =>
    obtain ⟨hk, hkM⟩ := hkey
    have hord : m.Pairwise NodeLt := hordD.imp (fun h => h.1)
    have hv : ∀ n ∈ m, n.lo ≤ n.hi := fun n hn => (hwf n hn).1
    cases mh with
    | true =>
      rw [insert_true_eq]
      have hE := erase_facts P M klo khi m hord hwf hk hkM
      have hED := erase_drel P M klo khi m htr hsp hordD hwf hk hkM
      exact insertCore_drel M P klo khi v _ hmg hED hE.2.1 hE.2.2 hk hkM
    | false =>
      cases hlb : lowerBound klo m with
      | nil =>
        rw [insert_false_nil M P klo khi v m hlb]
        have hdist : ∀ x ∈ m, x.hi < klo ∨ khi < x.lo := by
          intro x hx
          have h2 := List.dropWhile_eq_nil_iff.mp hlb x hx
          exact Or.inl (by simpa using h2)
        exact insertCore_drel M P klo khi v m hmg hordD hwf hdist hk hkM
      | cons f t =>
        rw [insert_false_cons M P klo khi v m f t hlb]
        by_cases hov : ivOverlapping klo khi f.lo f.hi
        · rw [if_pos hov]
          exact ⟨hordD, hwf⟩
        · rw [if_neg hov]
          have hlb2 : m.dropWhile (fun n => decide (n.hi < klo)) = f :: t := hlb
          have hf1 : ¬(f.hi < klo) := by
            simpa using dropWhile_head_not (fun n => decide (n.hi < klo)) m f t hlb2
          have hfm : f ∈ m := by
            have h2 : f ∈ lowerBound klo m := by rw [hlb]; simp
            exact (List.dropWhile_sublist _).subset h2
          obtain ⟨hf2, hf3⟩ := hwf f hfm
          have hov2 : ¬(f.lo ≤ khi) := by
            intro h4
            apply hov
            unfold ivOverlapping
            simp
            exact ⟨h4, by omega⟩
          have hdist : ∀ x ∈ m, x.hi < klo ∨ khi < x.lo := by
            intro x hx
            rw [← List.takeWhile_append_dropWhile (fun n => n.hi < klo) m] at hx
            rcases List.mem_append.mp hx with h | h
            · exact Or.inl (by simpa using List.mem_takeWhile_imp h)
            · rw [show m.dropWhile (fun n => n.hi < klo) = f :: t from hlb] at h
              rcases List.mem_cons.mp h with rfl | h
              · exact Or.inr (by omega)
              · have hpair : (f :: t).Pairwise NodeLt := by
                  rw [← hlb]
                  exact hord.sublist (List.dropWhile_sublist _)
                have h5 := (List.pairwise_cons.mp hpair).1 x h
                unfold NodeLt at h5
                exact Or.inr (by omega)
          exact insertCore_drel M P klo khi v m hmg hordD hwf hdist hk hkM

theorem erase_invD {V : Type} (M : Nat) (P : MergePolicy V) (key : Iv) (m : IMap V)
    (htr : ∀ lo hi v x, P.truncate lo hi v x = v)
    (hsp : ∀ lo hi v x, P.split lo hi v x = (v, v))
    (hm : InvD M m) (hkey : IvWF M key) : InvD M (erase P key m) := by
  obtain ⟨hordD, hwf⟩ := hm
  cases key with
  | empty => exact ⟨hordD, hwf⟩
  | mk elo ehi =>
    obtain ⟨hee, hem⟩ := hkey
    have hord : m.Pairwise NodeLt := hordD.imp (fun h => h.1)
    exact ⟨erase_drel P M elo ehi m htr hsp hordD hwf hee hem,
      (erase_facts P M elo ehi m hord hwf hee hem).2.1⟩

theorem foldl_insert_invD {V : Type} [DecidableEq V] (M : Nat) (P : MergePolicy V)
    (hmg : ∀ l1 h1 v1 l2 h2 v2, P.merge l1 h1 v1 l2 h2 v2 =
      if v1 = v2 then some v1 else none)
    (htr : ∀ lo hi v x, P.truncate lo hi v x = v)
    (hsp : ∀ lo hi v x, P.split lo hi v x = (v, v)) (mh : Bool) :
    ∀ (l : List (Iv × V)) (m : IMap V), InvD M m → (∀ kv ∈ l, IvWF M kv.1) →
      InvD M (l.foldl (fun acc kv => insert M P kv.1 kv.2 mh acc) m) := by
  intro l
  induction l with
  | nil =>
    intro m hm _
    exact hm
  | cons kv t ih =>
    intro m hm hl
    rw [List.foldl_cons]
    exact ih (insert M P kv.1 kv.2 mh m)
      (insert_drel M P kv.1 kv.2 mh m hmg htr hsp hm (hl kv (by simp)))
      (fun x hx => hl x (by simp [hx]))

theorem foldl_erase_invD {V : Type} (M : Nat) (P : MergePolicy V)
    (htr : ∀ lo hi v x, P.truncate lo hi v x = v)
    (hsp : ∀ lo hi v x, P.split lo hi v x = (v, v)) :
    ∀ (l : List Iv) (m : IMap V), InvD M m → (∀ k ∈ l, IvWF M k) →
      InvD M (l.foldl (fun acc k => erase P k acc) m) := by
  intro l
  induction l with
  | nil =>
    intro m hm _
    exact hm
  | cons k t ih =>
    intro m hm hl
    rw [List.foldl_cons]
    exact ih (erase P k m) (erase_invD M P k m htr hsp hm (hl k (by simp)))
      (fun x hx => hl x (by simp [hx]))

theorem applyOp_invD {V : Type} [DecidableEq V] (M : Nat) (P : MergePolicy V)
    (hmg : ∀ l1 h1 v1 l2 h2 v2, P.merge l1 h1 v1 l2 h2 v2 =
      if v1 = v2 then some v1 else none)
    (htr : ∀ lo hi v x, P.truncate lo hi v x = v)
    (hsp : ∀ lo hi v x, P.split lo hi v x = (v, v))
    (m : IMap V) (op : MapOp V) (hm : InvD M m) (hop : OpWF M op) :
    InvD M (applyOp M P m op) := by
  cases op with
  | opInsert key v mh => exact insert_drel M P key v mh m hmg htr hsp hm hop
  | opErase key => exact erase_invD M P key m htr hsp hm hop
  | opInsertMultiple other mh => exact foldl_insert_invD M P hmg htr hsp mh other m hm hop
  | opEraseMultiple other => exact foldl_erase_invD M P htr hsp other m hm hop
  | opClear => exact ⟨List.Pairwise.nil, fun n hn => absurd hn (List.not_mem_nil n)⟩

theorem runOps_invD {V : Type} [DecidableEq V] (M : Nat) (P : MergePolicy V)
    (hmg : ∀ l1 h1 v1 l2 h2 v2, P.merge l1 h1 v1 l2 h2 v2 =
      if v1 = v2 then some v1 else none)
    (htr : ∀ lo hi v x, P.truncate lo hi v x = v)
    (hsp : ∀ lo hi v x, P.split lo hi v x = (v, v))
    (ops : List (MapOp V)) (hops : ∀ op ∈ ops, OpWF M op) :
    InvD M (runOps M P ops) := by
  have hgen : ∀ (l : List (MapOp V)) (m : IMap V), InvD M m → (∀ op ∈ l, OpWF M op) →
      InvD M (l.foldl (applyOp M P) m) := by
    intro l
    induction l with
    | nil =>
      intro m hm _
      exact hm
    | cons op t ih =>
      intro m hm hl
      rw [List.foldl_cons]
      exact ih (applyOp M P m op) (applyOp_invD M P hmg htr hsp m op hm (hl op (by simp)))
        (fun x hx => hl x (by simp [hx]))
  exact hgen ops [] ⟨List.Pairwise.nil, fun n hn => absurd hn (List.not_mem_nil n)⟩ hops

theorem invD_claimInvariant {V : Type} [DecidableEq V] (m : IMap V)
    (h : m.Pairwise DRel) : ClaimInvariant (defaultPolicy V) m := by
  refine h.imp ?_
  intro a b hab
  obtain ⟨h1, h2⟩ := hab
  constructor
  · unfold ivOverlapping
    have h3 : ¬(b.lo ≤ a.hi) := by omega
    simp [h3]
  · intro hadj
    show (if a.val = b.val then some a.val else none) = none
    rw [if_neg (h2 hadj)]

end IntervalMap

namespace IntervalMap

/-- C4: for every interval map satisfying the container's ordering/validity
invariant, every interval of the scalar domain (including the empty interval,
for which `insert` is a no-op and `contains` returns true), and every value,
`contains(I)` returns true after `insert(I, v)` with `makeHole = true`, for an
arbitrary merge policy. -/
theorem C4_insert_contains {V : Type} (M : Nat) (P : MergePolicy V) (key : Iv) (v : V)
    (m : IMap V) (hm : InvO M m) (hkey : IvWF M key) :
    contains key (insert M P key v true m) = true := by
  obtain ⟨hord, hwf⟩ := hm
  cases key with
  | empty => rfl
  | mk klo khi =>
    obtain ⟨hk, hkM⟩ := hkey
    obtain ⟨hordE, hwfE, hdistE⟩ := erase_facts P M klo khi m hord hwf hk hkM
    obtain ⟨l1, n, l2, hsplit, hpair, hwfA, hnlo, hnhi, hl1⟩ :=
      insertCore_facts M P klo khi v (erase P (.mk klo khi) m) hordE hwfE hdistE hk hkM
    rw [insert_true_eq, hsplit]
    have hdw : List.dropWhile (fun x => x.hi < klo) (l1 ++ n :: l2) = n :: l2 :=
      dropWhile_eq_cons_of _ l1 n l2
        (fun x hx => by
          have h1 := hl1 x hx
          simp
          omega)
        (by simp; omega)
    show containsGo khi klo (lowerBound klo (l1 ++ n :: l2)) = true
    rw [show lowerBound klo (l1 ++ n :: l2) = n :: l2 from hdw]
    show (if klo < n.lo then false
      else if khi ≤ n.hi then true else containsGo khi (n.hi + 1) l2) = true
    rw [if_neg (by omega : ¬klo < n.lo), if_pos (by omega : khi ≤ n.hi)]

theorem C4_witness : InvO 16 [⟨0, 3, 1⟩] ∧ IvWF 16 (.mk 2 5) ∧
    contains (.mk 2 5) (insert 16 (defaultPolicy Nat) (.mk 2 5) 7 true [⟨0, 3, 1⟩]) = true := by
  refine ⟨⟨by simp, ?_⟩, ⟨by decide, by decide⟩, ?_⟩
  · intro n hn
    have h2 : n = ⟨0, 3, 1⟩ := by simpa using hn
    subst h2
    exact ⟨by decide, by decide⟩
  · exact C4_insert_contains 16 (defaultPolicy Nat) (.mk 2 5) 7 [⟨0, 3, 1⟩]
      ⟨by simp, fun n hn => by
        have h2 : n = ⟨0, 3, 1⟩ := by simpa using hn
        subst h2
        exact ⟨by decide, by decide⟩⟩
      ⟨by decide, by decide⟩

/-- C1 (amended): with the default merge policy (values merge iff equal,
identity split and truncate), after any sequence of well-formed mutating
operations starting from the empty map, no two stored nodes overlap and no two
adjacent stored nodes have values the policy would merge.  The claim as stated
for arbitrary merge policies is refuted by `C1_counterexample`: a policy whose
`truncate` rewrites the surviving value can leave two adjacent equal-valued
nodes after `erase`. -/
theorem C1_invariant {V : Type} [DecidableEq V] (M : Nat) (ops : List (MapOp V))
    (hops : ∀ op ∈ ops, OpWF M op) :
    ClaimInvariant (defaultPolicy V) (runOps M (defaultPolicy V) ops) :=
  invD_claimInvariant _ (runOps_invD M (defaultPolicy V)
    (fun _ _ _ _ _ _ => rfl) (fun _ _ _ _ => rfl) (fun _ _ _ _ => rfl) ops hops).1

theorem C1_witness :
    (∀ op ∈ ([.opInsert (.mk 0 4) 0 true, .opInsert (.mk 5 9) 1 true,
        .opErase (.mk 6 9)] : List (MapOp Nat)), OpWF 16 op) ∧
      ClaimInvariant (defaultPolicy Nat) (runOps 16 (defaultPolicy Nat)
        [.opInsert (.mk 0 4) 0 true, .opInsert (.mk 5 9) 1 true, .opErase (.mk 6 9)]) := by
  have hops : ∀ op ∈ ([.opInsert (.mk 0 4) 0 true, .opInsert (.mk 5 9) 1 true,
      .opErase (.mk 6 9)] : List (MapOp Nat)), OpWF 16 op := by
    intro op hop
    simp only [List.mem_cons] at hop
    rcases hop with rfl | rfl | rfl | h
    · exact ⟨by decide, by decide⟩
    · exact ⟨by decide, by decide⟩
    · exact ⟨by decide, by decide⟩
    · simp at h
  exact ⟨hops, C1_invariant 16 _ hops⟩

/-- C1 counterexample: with a legal merge policy whose `truncate` rewrites the
surviving value to the constant 0 (merging values iff equal, as the default
policy does), the well-formed operation sequence insert([0,4],0),
insert([5,9],1), erase([6,9]) on the domain [0,15] leaves the map
[([0,4],0), ([5,5],0)]: two adjacent nodes with equal values, which the policy
would merge, refuting the claimed invariant for arbitrary merge policies. -/
theorem C1_counterexample :
    (∀ op ∈ ([.opInsert (.mk 0 4) 0 true, .opInsert (.mk 5 9) 1 true,
        .opErase (.mk 6 9)] : List (MapOp Nat)), OpWF 16 op) ∧
      ¬ClaimInvariant zeroTruncPolicy (runOps 16 zeroTruncPolicy
        [.opInsert (.mk 0 4) 0 true, .opInsert (.mk 5 9) 1 true, .opErase (.mk 6 9)]) := by
  constructor
  · intro op hop
    simp only [List.mem_cons] at hop
    rcases hop with rfl | rfl | rfl | h
    · exact ⟨by decide, by decide⟩
    · exact ⟨by decide, by decide⟩
    · exact ⟨by decide, by decide⟩
    · simp at h
  · intro h
    have hrun : runOps 16 zeroTruncPolicy
        [.opInsert (.mk 0 4) 0 true, .opInsert (.mk 5 9) 1 true, .opErase (.mk 6 9)] =
        [⟨0, 4, 0⟩, ⟨5, 5, 0⟩] := rfl
    rw [hrun] at h
    have h2 := (List.pairwise_cons.mp h).1 ⟨5, 5, 0⟩ (by simp)
    have h3 := h2.2 (by decide)
    exact absurd h3 (by decide)

end IntervalMap
